import Mathlib

/-!
Verification of the libmatrices dense-matrix library: the `Display`
formatter and the `Inv::inv` matrix-inversion routine from
`src/mat/_mat/mat_traits.rs`, over the exact scalar type ℚ.

The matrix data structure, `Matrix::zero`, and `lupdecompose` are not part
of the provided source; they are modelled from the specification
(sections 3, 4.1 and 4.2).  The inversion routine `inv` and the display
formatter are transliterated from the source.  Mutable buffers are
represented as functions `Nat → Nat → ℚ` updated pointwise; the flat
row-major backing vector is materialised with `toFlat` where the source
manipulates it directly (in particular for the final
`mat_inv.matrix.reverse()` step).
-/

namespace Libmat

/-- Modelled from the spec: `DimensionError` signals a shape mismatch and
carries no recoverable state. -/
inductive DimensionError where
  | dimensionMismatch
  deriving DecidableEq, Repr

/-- Modelled from the spec: `Dimensions` holds row/column counts. -/
structure Dimensions where
  rows : Nat
  cols : Nat
  deriving DecidableEq, Repr

def Dimensions.get_rows (d : Dimensions) : Nat := d.rows

def Dimensions.get_cols (d : Dimensions) : Nat := d.cols

/-- Modelled from the spec: `Matrix<T>` is a row-major dense container;
element (i,j) lives at linear index `i*cols + j`.  We instantiate the
scalar type `T` with the exact scalar ℚ. -/
structure Matrix where
  dims : Dimensions
  matrix : List ℚ
  deriving DecidableEq, Repr

def Matrix.row_count (m : Matrix) : Nat := m.dims.rows

def Matrix.col_count (m : Matrix) : Nat := m.dims.cols

/-- Element (i,j) of a matrix, read from the row-major backing list
(out-of-range reads default to 0; the algorithms below only read
in-range positions). -/
def Matrix.entry (m : Matrix) (i j : Nat) : ℚ :=
  m.matrix.getD (i * m.dims.get_cols + j) 0

/-- Modelled from the spec: `zero(rows, cols)` fails with a
`DimensionError` if either dimension is 0, else produces a row-major
matrix of zeros. -/
def Matrix.zero (rows cols : Nat) : Except DimensionError Matrix :=
  if rows = 0 ∨ cols = 0 then .error .dimensionMismatch
  else .ok ⟨⟨rows, cols⟩, List.replicate (rows * cols) 0⟩

/-- Pointwise update of a buffer function: the model of one
`buf[i][j] = v` store. -/
def setE (f : Nat → Nat → ℚ) (i j : Nat) (v : ℚ) : Nat → Nat → ℚ :=
  fun a b => if a = i ∧ b = j then v else f a b

/-- Materialise a buffer function as the row-major backing list of a
`rows × cols` matrix. -/
def toFlat (f : Nat → Nat → ℚ) (rows cols : Nat) : List ℚ :=
  (List.range (rows * cols)).map (fun t => f (t / cols) (t % cols))

/-- Modelled from the spec (§4.2, step 2): find the row `r ≥ k` with the
maximum absolute value in column `k` among rows `k..n`, ties broken by
the lowest row index; returns the row and the maximum absolute value. -/
def pivotSearch (w : Nat → Nat → ℚ) (n k : Nat) : Nat × ℚ :=
  (List.range' (k + 1) (n - (k + 1))).foldl
    (fun best i => if |w i k| > best.2 then (i, |w i k|) else best)
    (k, |w k k|)

/-- Modelled from the spec (§4.2, step 3): swap rows `k` and `r` of the
working buffer. -/
def swapRowsF (w : Nat → Nat → ℚ) (k r : Nat) : Nat → Nat → ℚ :=
  fun a b => if a = k then w r b else if a = r then w k b else w a b

/-- Modelled from the spec (§4.2, step 4): for each row `i > k`, store the
multiplier `w[i][k] / w[k][k]` in `w[i][k]` and subtract
`multiplier * w[k][j]` from `w[i][j]` for all `j > k`. -/
def elimStep (n k : Nat) (w : Nat → Nat → ℚ) : Nat → Nat → ℚ :=
  (List.range' (k + 1) (n - (k + 1))).foldl
    (fun w0 i =>
      let mult := w0 i k / w0 k k
      let w1 := setE w0 i k mult
      (List.range' (k + 1) (n - (k + 1))).foldl
        (fun w2 jj => setE w2 i jj (w2 i jj - mult * w2 k jj)) w1)
    w

/-- Modelled from the spec (§4.2): the pivot loop of `lupdecompose`,
processing pivot columns `k, k+1, ..., n-1` (`rem` counts the remaining
columns); returns `none` as soon as a pivot with maximum absolute value
0 is found (singular matrix). -/
def lupGo (n : Nat) : Nat → Nat → (Nat → Nat → ℚ) → List Nat →
    Option ((Nat → Nat → ℚ) × List Nat)
  | 0, _, w, p => some (w, p)
  | rem + 1, k, w, p =>
    let piv := pivotSearch w n k
    if piv.2 = 0 then none
    else
      let w1 := if piv.1 ≠ k then swapRowsF w k piv.1 else w
      let p1 := if piv.1 ≠ k then (p.set k (p.getD piv.1 0)).set piv.1 (p.getD k 0) else p
      lupGo n rem (k + 1) (elimStep n k w1) p1

/-- Modelled from the spec (§4.2): `lupdecompose` fails with
`DimensionError` on a non-square input; otherwise runs LU decomposition
with partial pivoting on a working copy, starting from the identity
permutation, returning `none` on singularity or the combined L/U factor
matrix together with the permutation vector. -/
def lupdecompose (m : Matrix) : Except DimensionError (Option (Matrix × List Nat)) :=
  if m.dims.get_rows ≠ m.dims.get_cols then .error .dimensionMismatch
  else
    let n := m.dims.get_rows
    match lupGo n n 0 (fun i j => m.entry i j) (List.range n) with
    | none => .ok none
    | some (w, p) => .ok (some (⟨⟨n, n⟩, toFlat w n n⟩, p))

/-- One row of the forward-substitution loop of `inv` (source lines
60–71): seed `buf[i][j]` with 1 if `p[i] == j` else 0, then subtract
`mat[i][k] * buf[k][j]` for each `k < i`. -/
def forwardRow (a : Nat → Nat → ℚ) (p : List Nat) (j : Nat)
    (b : Nat → Nat → ℚ) (i : Nat) : Nat → Nat → ℚ :=
  (List.range i).foldl
    (fun b2 k => setE b2 i j (b2 i j - a i k * b2 k j))
    (setE b i j (if p.getD i 0 = j then 1 else 0))

/-- Forward-substitution loop of `inv` for output column `j`
(source lines 59–72): rows `i` processed from 0 to `dim-1`. -/
def invForward (a : Nat → Nat → ℚ) (p : List Nat) (dim j : Nat)
    (buf : Nat → Nat → ℚ) : Nat → Nat → ℚ :=
  (List.range dim).foldl (forwardRow a p j) buf

/-- One row of the back-substitution loop of `inv` (source lines 74–80):
subtract `mat[i][k] * buf[k][j]` for each `k` in `i+1..dim`, then divide
`buf[i][j]` by `mat[i][i]`. -/
def backwardRow (a : Nat → Nat → ℚ) (dim j : Nat)
    (b : Nat → Nat → ℚ) (i : Nat) : Nat → Nat → ℚ :=
  let b1 := (List.range' (i + 1) (dim - (i + 1))).foldl
    (fun b2 k => setE b2 i j (b2 i j - a i k * b2 k j)) b
  setE b1 i j (b1 i j / a i i)

/-- Back-substitution loop of `inv` for output column `j`
(source lines 74–80): rows `i` processed from `dim-1` down to 0. -/
def invBackward (a : Nat → Nat → ℚ) (dim j : Nat)
    (buf : Nat → Nat → ℚ) : Nat → Nat → ℚ :=
  ((List.range dim).reverse).foldl (backwardRow a dim j) buf

/-- Body of the column loop of `inv` (source lines 58–81): forward then
back substitution for output column `j`. -/
def colStep (a : Nat → Nat → ℚ) (p : List Nat) (dim : Nat)
    (buf : Nat → Nat → ℚ) (j : Nat) : Nat → Nat → ℚ :=
  invBackward a dim j (invForward a p dim j buf)

/-- The inverse buffer of `inv` before the final reversal step
(source lines 57–81): starting from the zero buffer
(`Matrix::zero(dim, dim).unwrap()`), run forward then back substitution
for each output column `j` from 0 to `dim-1`. -/
def invBuffer (a : Nat → Nat → ℚ) (p : List Nat) (dim : Nat) : Nat → Nat → ℚ :=
  (List.range dim).foldl (colStep a p dim) (fun _ _ => 0)

/-- `Inv::inv` from the source (lines 54–87): propagate the
`DimensionError` of `lupdecompose`, map singularity to `Ok(None)`, else
build the inverse buffer by substitution and finish with
`mat_inv.matrix.reverse()` — a reversal of the flat row-major backing
vector. -/
def inv (m : Matrix) : Except DimensionError (Option Matrix) :=
  match lupdecompose m with
  | .error e => .error e
  | .ok none => .ok none
  | .ok (some (mat, p)) =>
    let dim := mat.row_count
    let buf := invBuffer (fun i j => mat.entry i j) p dim
    .ok (some ⟨⟨dim, dim⟩, (toFlat buf dim dim).reverse⟩)

/-- `Display::fmt` from the source (lines 14–28), rendering to a string
with a caller-supplied per-element renderer (the `"{}"` format of the
scalar type): tab after an element not last in its row, newline after
the last element of a non-final row, nothing after the final element. -/
def fmtRender (render : ℚ → String) (m : Matrix) : String :=
  (List.range m.dims.get_rows).foldl
    (fun s i =>
      (List.range m.dims.get_cols).foldl
        (fun s2 j =>
          let n := m.entry i j
          if j = m.dims.get_cols - 1 ∧ i = m.dims.get_rows - 1 then s2 ++ render n
          else if j = m.dims.get_cols - 1 then s2 ++ render n ++ "\n"
          else s2 ++ render n ++ "\t")
        s)
    ""

/-- Modelled from the spec: matrix multiplication (an external
collaborator of the core, §1), entry (i,j) of `A * B` being the sum over
`k` of `A[i][k] * B[k][j]`. -/
def matMul (A B : Matrix) : Matrix :=
  ⟨⟨A.dims.rows, B.dims.cols⟩,
    toFlat (fun i j => ((List.range A.dims.cols).map
      (fun k => A.entry i k * B.entry k j)).sum) A.dims.rows B.dims.cols⟩

/-- The Kronecker delta: entry function of the identity matrix. -/
def deltaF (i j : Nat) : ℚ := if i = j then 1 else 0

/-- Modelled from the spec: the identity matrix `I_n` (§8, concrete
scenario 3). -/
def identityM (n : Nat) : Matrix := ⟨⟨n, n⟩, toFlat deltaF n n⟩

/-- The row reversal described by the spec (§4.3, final step): row `i`
becomes row `rows-1-i`, with each row's elements kept in their original
left-to-right order. -/
def rowReverse (m : Matrix) : Matrix :=
  ⟨m.dims, toFlat (fun i j => m.entry (m.dims.rows - 1 - i) j)
    m.dims.rows m.dims.cols⟩

/-- The inverse buffer of `inv` before the final reversal, packaged as a
matrix (for comparison with the returned inverse). -/
def bufferOf (m : Matrix) : Option Matrix :=
  match lupdecompose m with
  | .ok (some (mat, p)) =>
    some ⟨⟨mat.row_count, mat.row_count⟩,
      toFlat (invBuffer (fun i j => mat.entry i j) p mat.row_count)
        mat.row_count mat.row_count⟩
  | _ => none

/-! Function-matrix algebra: n × n matrices as entry functions, used to
verify the LU pipeline against the invertibility contract of the spec. -/

/-- Product of two n × n matrices given as entry functions. -/
def fmul (n : Nat) (A B : Nat → Nat → ℚ) : Nat → Nat → ℚ :=
  fun i j => ∑ t ∈ Finset.range n, A i t * B t j

/-- Equality of entry functions on the n × n range. -/
def EqOn (n : Nat) (A B : Nat → Nat → ℚ) : Prop :=
  ∀ i j, i < n → j < n → A i j = B i j

/-- Entry `i` of the permutation vector. -/
def pfun (p : List Nat) (i : Nat) : Nat := p.getD i 0

/-- The permutation matrix of `p`: row `i` is the unit row at `p[i]`. -/
def permM (p : List Nat) : Nat → Nat → ℚ := fun i j => deltaF (pfun p i) j

/-- The transpose of `permM p`. -/
def permT (p : List Nat) : Nat → Nat → ℚ := fun i j => deltaF (pfun p j) i

/-- The unit lower-triangular factor read off the combined L/U buffer
after `k` processed pivot columns: multipliers below the diagonal in
columns `< k`, ones on the diagonal, zeros elsewhere. -/
def Lmat (k : Nat) (w : Nat → Nat → ℚ) : Nat → Nat → ℚ :=
  fun i j => if i = j then 1 else if j < k ∧ j < i then w i j else 0

/-- The upper factor read off the combined buffer after `k` processed
pivot columns: the buffer with the multiplier cells masked to 0. -/
def Umat (k : Nat) (w : Nat → Nat → ℚ) : Nat → Nat → ℚ :=
  fun i j => if j < k ∧ j < i then 0 else w i j

/-- The transposition exchanging `k` and `r`. -/
def swapIdx (k r t : Nat) : Nat := if t = k then r else if t = r then k else t

/-- The elementary elimination matrix of step `k` (`sgn = -1`) and its
inverse (`sgn = 1`): identity plus `sgn * mult i` in column `k`, rows
`k < i < n`. -/
def elimE (n k : Nat) (mult : Nat → ℚ) (sgn : ℚ) : Nat → Nat → ℚ :=
  fun i t => if i = t then 1 else if t = k ∧ k < i ∧ i < n then sgn * mult i else 0

/-- A vector embedded as a matrix with constant rows, so the matrix
algebra applies to the substitution vectors. -/
def colV (v : Nat → ℚ) : Nat → Nat → ℚ := fun i _ => v i

/-- The forward-substitution recurrence of the spec (§4.3): for each row
`i`, seed with 1 if `p[i] == j` else 0, and subtract the sum over `k < i`
of `mat[i][k] * y[k]`. -/
def yrec (a : Nat → Nat → ℚ) (p : List Nat) (j : Nat) (i : Nat) : ℚ :=
  (if p.getD i 0 = j then 1 else 0) -
    ((List.range i).attach.map (fun k => a i k.1 * yrec a p j k.1)).sum
termination_by i
decreasing_by exact List.mem_range.mp k.2

/-- The back-substitution recurrence of the spec (§4.3): for each row
`i`, subtract from `y[i]` the sum over `k` in `i+1..dim` of
`mat[i][k] * x[k]`, then divide by the diagonal element `mat[i][i]`. -/
def xrec (a : Nat → Nat → ℚ) (y : Nat → ℚ) (dim : Nat) (i : Nat) : ℚ :=
  (y i - ((List.range' (i + 1) (dim - (i + 1))).attach.map
    (fun k => a i k.1 * xrec a y dim k.1)).sum) / a i i
termination_by dim - i
decreasing_by
  have h := List.mem_range'_1.mp k.2
  omega

/-- The inverse of a unit lower-triangular matrix, built column by
column by forward substitution. -/
def lowInv (n : Nat) (L : Nat → Nat → ℚ) : Nat → Nat → ℚ :=
  fun i j => yrec L (List.range n) j i

instance {ε α : Type} [DecidableEq ε] [DecidableEq α] : DecidableEq (Except ε α) :=
  fun a b =>
    match a, b with
    | .error x, .error y =>
      if h : x = y then isTrue (by rw [h]) else isFalse (by intro c; cases c; exact h rfl)
    | .ok x, .ok y =>
      if h : x = y then isTrue (by rw [h]) else isFalse (by intro c; cases c; exact h rfl)
    | .error _, .ok _ => isFalse (by intro c; cases c)
    | .ok _, .error _ => isFalse (by intro c; cases c)

/-! Concrete matrices used as test inputs below. -/

/-- The 3×3 matrix of the doc example of `inv` (source line 47). -/
def docMatA : Matrix := ⟨⟨3, 3⟩, [0, -1, 2, 1, 2, 0, 2, 1, 0]⟩

/-- The inverse the doc example asserts for `docMatA` (source lines 49–50). -/
def docMatB : Matrix :=
  ⟨⟨3, 3⟩, [0, -1/3, 2/3, 0, 2/3, -1/3, 1/2, 1/3, -1/6]⟩

/-- A small invertible 2×2 test matrix [[1,1],[0,1]]. -/
def testM2 : Matrix := ⟨⟨2, 2⟩, [1, 1, 0, 1]⟩

/-- What `inv` actually returns on `testM2`. -/
def testM2inv : Matrix := ⟨⟨2, 2⟩, [1, 0, -1, 1]⟩

/-- A singular 2×2 matrix with two identical rows. -/
def singM2 : Matrix := ⟨⟨2, 2⟩, [1, 1, 1, 1]⟩

/-- A non-square 2×3 matrix. -/
def rectM : Matrix := ⟨⟨2, 3⟩, [1, 2, 3, 4, 5, 6]⟩

/-- The 2×2 matrix [[1,2],[3,4]] of the display scenario. -/
def dispM : Matrix := ⟨⟨2, 2⟩, [1, 2, 3, 4]⟩

/-- Concatenation of a list of strings with a separator between
consecutive entries and nothing before the first or after the last. -/
def sepConcat (sep : String) : List String → String
  | [] => ""
  | [a] => a
  | a :: b :: rest => a ++ sep ++ sepConcat sep (b :: rest)

/-- The Display contract as the spec words it (§4.4): each row rendered
left-to-right with elements separated by a tab, rows separated by a
newline, no trailing newline. -/
def displaySpec (render : ℚ → String) (m : Matrix) : String :=
  sepConcat "\n" ((List.range m.dims.get_rows).map (fun i =>
    sepConcat "\t" ((List.range m.dims.get_cols).map
      (fun j => render (m.entry i j)))))

/-- A concrete renderer for rational scalars (the `"{}"` format). -/
def qRender (q : ℚ) : String := toString q

/-! ## Helper lemmas -/

theorem foldl_invariant {α β : Type} (P : α → Prop) (step : α → β → α) (l : List β)
    (h : ∀ a b, b ∈ l → P a → P (step a b)) (init : α) (hI : P init) :
    P (l.foldl step init) := by
  induction l generalizing init with
  | nil => exact hI
  | cons x xs ih =>
    exact ih (fun a b hb => h a b (List.mem_cons_of_mem _ hb)) _
      (h init x (List.mem_cons_self _ _) hI)

theorem setE_at (f : Nat → Nat → ℚ) (i j : Nat) (v : ℚ) : setE f i j v i j = v := by
  simp [setE]

theorem setE_ne (f : Nat → Nat → ℚ) (i j x y : Nat) (v : ℚ)
    (h : x ≠ i ∨ y ≠ j) : setE f i j v x y = f x y := by
  rcases h with h | h <;> simp [setE, h]

theorem flat_index_lt (R C i j : Nat) (hi : i < R) (hj : j < C) :
    i * C + j < R * C := by
  calc i * C + j < i * C + C := by omega
  _ = (i + 1) * C := by ring
  _ ≤ R * C := Nat.mul_le_mul_right C hi

theorem flat_div (C i j : Nat) (hj : j < C) : (i * C + j) / C = i := by
  have hC : 0 < C := by omega
  rw [Nat.add_comm, Nat.mul_comm, Nat.add_mul_div_left j i hC,
    Nat.div_eq_of_lt hj, Nat.zero_add]

theorem flat_mod (C i j : Nat) (hj : j < C) : (i * C + j) % C = j := by
  rw [Nat.add_comm, Nat.add_mul_mod_self_right]
  exact Nat.mod_eq_of_lt hj

theorem toFlat_length (f : Nat → Nat → ℚ) (R C : Nat) :
    (toFlat f R C).length = R * C := by
  simp [toFlat]

theorem toFlat_getD (f : Nat → Nat → ℚ) (R C q : Nat) (hq : q < R * C) :
    (toFlat f R C).getD q 0 = f (q / C) (q % C) := by
  have hlen : q < (toFlat f R C).length := by rw [toFlat_length]; exact hq
  rw [List.getD_eq_getElem _ _ hlen]
  simp [toFlat]

theorem entry_toFlat (f : Nat → Nat → ℚ) (R C i j : Nat)
    (hi : i < R) (hj : j < C) :
    Matrix.entry ⟨⟨R, C⟩, toFlat f R C⟩ i j = f i j := by
  show (toFlat f R C).getD (i * C + j) 0 = f i j
  rw [toFlat_getD f R C _ (flat_index_lt R C i j hi hj),
    flat_div C i j hj, flat_mod C i j hj]

theorem toFlat_congr (f g : Nat → Nat → ℚ) (R C : Nat)
    (h : ∀ i j, i < R → j < C → f i j = g i j) :
    toFlat f R C = toFlat g R C := by
  unfold toFlat
  apply List.map_congr_left
  intro t ht
  have ht2 : t < R * C := List.mem_range.mp ht
  have hC : 0 < C := by
    rcases Nat.eq_zero_or_pos C with h0 | h0
    · rw [h0, Nat.mul_zero] at ht2; omega
    · exact h0
  exact h _ _ ((Nat.div_lt_iff_lt_mul hC).mpr ht2) (Nat.mod_lt t hC)

theorem subFold_other (a : Nat → Nat → ℚ) (i j : Nat) (l : List Nat)
    (b : Nat → Nat → ℚ) (x y : Nat) (h : x ≠ i ∨ y ≠ j) :
    (l.foldl (fun b2 k => setE b2 i j (b2 i j - a i k * b2 k j)) b) x y = b x y := by
  induction l generalizing b with
  | nil => rfl
  | cons k ks ih => rw [List.foldl_cons, ih, setE_ne _ _ _ _ _ _ h]

theorem subFold_at (a : Nat → Nat → ℚ) (i j : Nat) (l : List Nat)
    (hl : ∀ k ∈ l, k ≠ i) (b : Nat → Nat → ℚ) :
    (l.foldl (fun b2 k => setE b2 i j (b2 i j - a i k * b2 k j)) b) i j
      = b i j - (l.map (fun k => a i k * b k j)).sum := by
  induction l generalizing b with
  | nil => simp
  | cons k ks ih =>
    rw [List.foldl_cons, ih (fun k2 hk2 => hl k2 (List.mem_cons_of_mem _ hk2))]
    rw [setE_at]
    have hreads : ∀ k2 ∈ ks,
        a i k2 * (setE b i j (b i j - a i k * b k j)) k2 j = a i k2 * b k2 j := by
      intro k2 hk2
      rw [setE_ne _ _ _ _ _ _ (Or.inl (hl k2 (List.mem_cons_of_mem _ hk2)))]
    rw [List.map_congr_left hreads, List.map_cons, List.sum_cons]
    ring

theorem forwardRow_at (a : Nat → Nat → ℚ) (p : List Nat) (j : Nat)
    (b : Nat → Nat → ℚ) (i : Nat) :
    forwardRow a p j b i i j
      = (if p.getD i 0 = j then 1 else 0)
        - ((List.range i).map (fun k => a i k * b k j)).sum := by
  unfold forwardRow
  rw [subFold_at a i j _ (fun k hk => by have := List.mem_range.mp hk; omega) _]
  rw [setE_at]
  have hr : ∀ k ∈ List.range i,
      a i k * setE b i j (if p.getD i 0 = j then 1 else 0) k j = a i k * b k j := by
    intro k hk
    rw [setE_ne _ _ _ _ _ _ (Or.inl (by have := List.mem_range.mp hk; omega))]
  rw [List.map_congr_left hr]

theorem forwardRow_other (a : Nat → Nat → ℚ) (p : List Nat) (j : Nat)
    (b : Nat → Nat → ℚ) (i x y : Nat) (h : x ≠ i ∨ y ≠ j) :
    forwardRow a p j b i x y = b x y := by
  unfold forwardRow
  rw [subFold_other _ _ _ _ _ _ _ h, setE_ne _ _ _ _ _ _ h]

theorem invForward_aux (a : Nat → Nat → ℚ) (p : List Nat) (j : Nat) :
    ∀ (t : Nat) (b : Nat → Nat → ℚ),
      (∀ i, i < t → ((List.range t).foldl (forwardRow a p j) b) i j = yrec a p j i)
      ∧ (∀ x y, t ≤ x ∨ y ≠ j →
        ((List.range t).foldl (forwardRow a p j) b) x y = b x y) := by
  intro t
  induction t with
  | zero =>
    intro b
    exact ⟨fun i h => absurd h (Nat.not_lt_zero i), fun x y _ => rfl⟩
  | succ t ih =>
    intro b
    rw [List.range_succ, List.foldl_append, List.foldl_cons, List.foldl_nil]
    set F := (List.range t).foldl (forwardRow a p j) b with hF
    constructor
    · intro i hi
      rcases Nat.lt_or_ge i t with hlt | hge
      · rw [forwardRow_other _ _ _ _ _ _ _ (Or.inl (by omega))]
        exact (ih b).1 i hlt
      · have hieq : i = t := by omega
        subst hieq
        rw [forwardRow_at]
        have hreads : ∀ k ∈ List.range i,
            a i k * F k j = a i k * yrec a p j k := by
          intro k hk
          rw [hF, (ih b).1 k (List.mem_range.mp hk)]
        rw [List.map_congr_left hreads]
        conv_rhs => rw [yrec]
        rw [List.attach_map_val (List.range i) (fun x => a i x * yrec a p j x)]
    · intro x y hxy
      have hne : x ≠ t ∨ y ≠ j := by
        rcases hxy with h | h
        · exact Or.inl (by omega)
        · exact Or.inr h
      rw [forwardRow_other _ _ _ _ _ _ _ hne]
      apply (ih b).2 x y
      rcases hxy with h | h
      · exact Or.inl (by omega)
      · exact Or.inr h

theorem invForward_other (a : Nat → Nat → ℚ) (p : List Nat) (dim j : Nat)
    (b : Nat → Nat → ℚ) (x y : Nat) (hy : y ≠ j) :
    invForward a p dim j b x y = b x y :=
  (invForward_aux a p j dim b).2 x y (Or.inr hy)

theorem backwardRow_other (a : Nat → Nat → ℚ) (dim j : Nat)
    (b : Nat → Nat → ℚ) (i x y : Nat) (h : x ≠ i ∨ y ≠ j) :
    backwardRow a dim j b i x y = b x y := by
  simp only [backwardRow]
  rw [setE_ne _ _ _ _ _ _ h, subFold_other _ _ _ _ _ _ _ h]

theorem backwardRow_at (a : Nat → Nat → ℚ) (dim j : Nat)
    (b : Nat → Nat → ℚ) (i : Nat) :
    backwardRow a dim j b i i j
      = (b i j - ((List.range' (i + 1) (dim - (i + 1))).map
          (fun k => a i k * b k j)).sum) / a i i := by
  simp only [backwardRow]
  rw [setE_at,
    subFold_at a i j _ (fun k hk => by have := List.mem_range'_1.mp hk; omega) b]

theorem invBackward_aux (a : Nat → Nat → ℚ) (dim j : Nat) (yv : Nat → ℚ) :
    ∀ (t : Nat), t ≤ dim → ∀ (b : Nat → Nat → ℚ),
      (∀ k, k < t → b k j = yv k) →
      (∀ k, t ≤ k → k < dim → b k j = xrec a yv dim k) →
      (∀ k, k < dim →
        (((List.range t).reverse).foldl (backwardRow a dim j) b) k j
          = xrec a yv dim k)
      ∧ (∀ x y, y ≠ j →
        (((List.range t).reverse).foldl (backwardRow a dim j) b) x y = b x y) := by
  intro t
  induction t with
  | zero =>
    intro _ b _ h2
    exact ⟨fun k hk => h2 k (Nat.zero_le k) hk, fun x y _ => rfl⟩
  | succ t ih =>
    intro ht b h1 h2
    simp only [List.range_succ, List.reverse_append, List.reverse_cons,
      List.reverse_nil, List.nil_append, List.singleton_append, List.foldl_cons]
    set b2 := backwardRow a dim j b t with hb2
    have hb2t : b2 t j = xrec a yv dim t := by
      rw [hb2, backwardRow_at]
      have hreads : ∀ k ∈ List.range' (t + 1) (dim - (t + 1)),
          a t k * b k j = a t k * xrec a yv dim k := by
        intro k hk
        have hm := List.mem_range'_1.mp hk
        rw [h2 k (by omega) (by omega)]
      rw [List.map_congr_left hreads, h1 t (Nat.lt_succ_self t)]
      conv_rhs => rw [xrec]
      rw [List.attach_map_val (List.range' (t + 1) (dim - (t + 1)))
        (fun x => a t x * xrec a yv dim x)]
    have hb2ne : ∀ x y, x ≠ t ∨ y ≠ j → b2 x y = b x y := by
      intro x y h
      rw [hb2, backwardRow_other _ _ _ _ _ _ _ h]
    obtain ⟨c1, c2⟩ := ih (by omega) b2
      (fun k hk => by rw [hb2ne k j (Or.inl (by omega)), h1 k (by omega)])
      (fun k hk1 hk2 => by
        rcases Nat.eq_or_lt_of_le hk1 with he | hlt
        · rw [← he]; exact hb2t
        · rw [hb2ne k j (Or.inl (by omega)), h2 k (by omega) hk2])
    exact ⟨c1, fun x y hy => by rw [c2 x y hy, hb2ne x y (Or.inr hy)]⟩

theorem invBackward_other (a : Nat → Nat → ℚ) (dim j : Nat)
    (b : Nat → Nat → ℚ) (x y : Nat) (hy : y ≠ j) :
    invBackward a dim j b x y = b x y := by
  unfold invBackward
  exact foldl_invariant (fun b2 => b2 x y = b x y) _ _
    (fun b2 i _ hP => by
      show backwardRow a dim j b2 i x y = b x y
      rw [backwardRow_other _ _ _ _ _ _ _ (Or.inr hy), hP])
    b rfl

theorem invBuffer_aux (a : Nat → Nat → ℚ) (p : List Nat) (dim : Nat) :
    ∀ (t : Nat) (i j : Nat), i < dim → j < t →
      ((List.range t).foldl (colStep a p dim) (fun _ _ => 0)) i j
        = xrec a (yrec a p j) dim i := by
  intro t
  induction t with
  | zero => intro i j _ hj; exact absurd hj (Nat.not_lt_zero j)
  | succ t ih =>
    intro i j hi hj
    rw [List.range_succ, List.foldl_append, List.foldl_cons, List.foldl_nil]
    set B := (List.range t).foldl (colStep a p dim) (fun _ _ => 0) with hB
    rcases Nat.lt_or_ge j t with hlt | hge
    · have hpres : colStep a p dim B t i j = B i j := by
        unfold colStep
        rw [invBackward_other a dim t _ i j (by omega),
          invForward_other a p dim t B i j (by omega)]
      rw [hpres]
      exact ih i j hi hlt
    · have hjt : j = t := by omega
      subst hjt
      unfold colStep
      have hfwd : ∀ k, k < dim → invForward a p dim j B k j = yrec a p j k :=
        (invForward_aux a p j dim B).1
      obtain ⟨c1, _⟩ := invBackward_aux a dim j (yrec a p j) dim le_rfl
        (invForward a p dim j B) hfwd
        (fun k hk1 hk2 => absurd (Nat.lt_of_le_of_lt hk1 hk2) (lt_irrefl dim))
      exact c1 i hi

theorem invBuffer_at (a : Nat → Nat → ℚ) (p : List Nat) (dim : Nat)
    (i j : Nat) (hi : i < dim) (hj : j < dim) :
    invBuffer a p dim i j = xrec a (yrec a p j) dim i := by
  unfold invBuffer
  exact invBuffer_aux a p dim dim i j hi hj

theorem revIdx (n i j : Nat) (hi : i < n) (hj : j < n) :
    n * n - 1 - (i * n + j) = (n - 1 - j) + (n - 1 - i) * n := by
  have h1 : i * n + j < n * n := flat_index_lt n n i j hi hj
  zify [show 1 ≤ n * n by omega, show i * n + j ≤ n * n - 1 by omega,
    show j ≤ n - 1 by omega, show i ≤ n - 1 by omega, show 1 ≤ n by omega]
  ring

theorem reverse_getD (l : List ℚ) (q : Nat) (hq : q < l.length) :
    l.reverse.getD q 0 = l.getD (l.length - 1 - q) 0 := by
  have h1 : q < l.reverse.length := by rw [List.length_reverse]; exact hq
  rw [List.getD_eq_getElem _ _ h1, List.getElem_reverse,
    List.getD_eq_getElem _ _ (by omega)]

theorem toFlat_rev_getD (f : Nat → Nat → ℚ) (n i j : Nat)
    (hi : i < n) (hj : j < n) :
    (toFlat f n n).reverse.getD (i * n + j) 0 = f (n - 1 - i) (n - 1 - j) := by
  have hq : i * n + j < n * n := flat_index_lt n n i j hi hj
  rw [reverse_getD _ _ (by rw [toFlat_length]; exact hq), toFlat_length,
    revIdx n i j hi hj]
  have hq2 : (n - 1 - j) + (n - 1 - i) * n < n * n := by
    rw [Nat.add_comm]
    exact flat_index_lt n n (n - 1 - i) (n - 1 - j) (by omega) (by omega)
  rw [toFlat_getD _ _ _ _ hq2]
  have hd : ((n - 1 - j) + (n - 1 - i) * n) / n = n - 1 - i := by
    rw [Nat.add_mul_div_right _ _ (by omega : 0 < n),
      Nat.div_eq_of_lt (by omega), Nat.zero_add]
  have hm : ((n - 1 - j) + (n - 1 - i) * n) % n = n - 1 - j := by
    rw [Nat.add_mul_mod_self_right]
    exact Nat.mod_eq_of_lt (by omega)
  rw [hd, hm]

theorem deltaF_diag (i : Nat) : deltaF i i = 1 := if_pos rfl

theorem deltaF_off (i j : Nat) (h : i ≠ j) : deltaF i j = 0 := if_neg h

theorem identityM_entry (n i j : Nat) (hi : i < n) (hj : j < n) :
    (identityM n).entry i j = deltaF i j :=
  entry_toFlat deltaF n n i j hi hj

theorem pivotSearch_delta (n k : Nat) (w : Nat → Nat → ℚ)
    (hw : ∀ i j, i < n → j < n → w i j = deltaF i j) (hk : k < n) :
    pivotSearch w n k = (k, 1) := by
  unfold pivotSearch
  have hkk : |w k k| = 1 := by rw [hw k k hk hk, deltaF_diag]; simp
  rw [hkk]
  apply foldl_invariant (fun best => best = (k, 1))
  · intro best i hmem hbest
    have hm := List.mem_range'_1.mp hmem
    show (if |w i k| > best.2 then (i, |w i k|) else best) = (k, 1)
    rw [hw i k (by omega) hk, deltaF_off i k (by omega), hbest]
    norm_num
  · rfl

theorem elimStep_delta (n k : Nat) (w : Nat → Nat → ℚ)
    (hw : ∀ i j, i < n → j < n → w i j = deltaF i j) (hk : k < n) :
    ∀ i j, i < n → j < n → elimStep n k w i j = deltaF i j := by
  have hstep : ∀ (w2 : Nat → Nat → ℚ) (i : Nat),
      i ∈ List.range' (k + 1) (n - (k + 1)) →
      (∀ x y, x < n → y < n → w2 x y = deltaF x y) →
      ∀ x y, x < n → y < n →
        ((List.range' (k + 1) (n - (k + 1))).foldl
          (fun w3 jj => setE w3 i jj (w3 i jj - (w2 i k / w2 k k) * w3 k jj))
          (setE w2 i k (w2 i k / w2 k k))) x y = deltaF x y := by
    intro w2 i hmem hP
    have hm := List.mem_range'_1.mp hmem
    have hmult : w2 i k / w2 k k = 0 := by
      rw [hP i k (by omega) hk, hP k k hk hk, deltaF_off i k (by omega),
        deltaF_diag]
      norm_num
    have hinit : ∀ x y, x < n → y < n →
        setE w2 i k (w2 i k / w2 k k) x y = deltaF x y := by
      intro x y hx hy
      by_cases hxy : x = i ∧ y = k
      · obtain ⟨hx1, hy1⟩ := hxy
        subst hx1; subst hy1
        rw [setE_at, hmult, deltaF_off x y (by omega)]
      · have hne : x ≠ i ∨ y ≠ k := by tauto
        rw [setE_ne _ _ _ _ _ _ hne]
        exact hP x y hx hy
    have hstep2 : ∀ (w3 : Nat → Nat → ℚ) (jj : Nat),
        jj ∈ List.range' (k + 1) (n - (k + 1)) →
        (∀ x y, x < n → y < n → w3 x y = deltaF x y) →
        ∀ x y, x < n → y < n →
          setE w3 i jj (w3 i jj - (w2 i k / w2 k k) * w3 k jj) x y = deltaF x y := by
      intro w3 jj hjm hP3 x y hx hy
      by_cases hxy : x = i ∧ y = jj
      · obtain ⟨hx1, hy1⟩ := hxy
        subst hx1; subst hy1
        rw [setE_at, hmult, hP3 x y hx hy]
        ring
      · have hne : x ≠ i ∨ y ≠ jj := by tauto
        rw [setE_ne _ _ _ _ _ _ hne]
        exact hP3 x y hx hy
    exact foldl_invariant
      (fun (w3 : Nat → Nat → ℚ) => ∀ x y, x < n → y < n → w3 x y = deltaF x y)
      _ _ hstep2 _ hinit
  exact foldl_invariant
    (fun (w2 : Nat → Nat → ℚ) => ∀ x y, x < n → y < n → w2 x y = deltaF x y)
    _ _ hstep w hw

theorem lupGo_delta (n : Nat) :
    ∀ (rem k : Nat) (w : Nat → Nat → ℚ) (p : List Nat), k + rem = n →
      (∀ i j, i < n → j < n → w i j = deltaF i j) →
      ∃ w2, lupGo n rem k w p = some (w2, p)
        ∧ ∀ i j, i < n → j < n → w2 i j = deltaF i j := by
  intro rem
  induction rem with
  | zero =>
    intro k w p hk hw
    exact ⟨w, rfl, hw⟩
  | succ rem ih =>
    intro k w p hk hw
    have hkn : k < n := by omega
    have hstep : lupGo n (rem + 1) k w p = lupGo n rem (k + 1) (elimStep n k w) p := by
      show (let piv := pivotSearch w n k
        if piv.2 = 0 then none
        else
          let w1 := if piv.1 ≠ k then swapRowsF w k piv.1 else w
          let p1 := if piv.1 ≠ k then
            (p.set k (p.getD piv.1 0)).set piv.1 (p.getD k 0) else p
          lupGo n rem (k + 1) (elimStep n k w1) p1) = _
      rw [pivotSearch_delta n k w hw hkn]
      norm_num
    rw [hstep]
    exact ih (k + 1) (elimStep n k w) p (by omega) (elimStep_delta n k w hw hkn)

theorem lupdecompose_identityM (n : Nat) :
    lupdecompose (identityM n) = .ok (some (identityM n, List.range n)) := by
  obtain ⟨w2, hgo, hw2⟩ := lupGo_delta n n 0
    (fun i j => (identityM n).entry i j) (List.range n) (by omega)
    (fun i j hi hj => identityM_entry n i j hi hj)
  unfold lupdecompose
  rw [if_neg (show ¬((identityM n).dims.get_rows ≠ (identityM n).dims.get_cols)
    from by exact fun hc => hc rfl)]
  show (match lupGo n n 0 (fun i j => (identityM n).entry i j) (List.range n) with
    | none => Except.ok none
    | some (w, p) => Except.ok (some (⟨⟨n, n⟩, toFlat w n n⟩, p)))
    = Except.ok (some (identityM n, List.range n))
  rw [hgo]
  have hfl : toFlat w2 n n = toFlat deltaF n n := toFlat_congr _ _ _ _ hw2
  show Except.ok (some ((⟨⟨n, n⟩, toFlat w2 n n⟩ : Matrix), List.range n)) = _
  rw [hfl]
  rfl

theorem yrec_delta (n j i : Nat) (a : Nat → Nat → ℚ)
    (ha : ∀ x y, x < n → y < n → a x y = deltaF x y) (hi : i < n) :
    yrec a (List.range n) j i = deltaF i j := by
  rw [yrec]
  have hsum : ((List.range i).attach.map
      (fun k => a i k.1 * yrec a (List.range n) j k.1)).sum = 0 := by
    apply List.sum_eq_zero
    intro x hx
    obtain ⟨k, hk, rfl⟩ := List.mem_map.mp hx
    have hki : k.1 < i := List.mem_range.mp k.2
    rw [ha i k.1 hi (by omega), deltaF_off i k.1 (by omega), zero_mul]
  rw [hsum, sub_zero]
  have hgd : (List.range n).getD i 0 = i := by
    rw [List.getD_eq_getElem _ _ (by rw [List.length_range]; exact hi),
      List.getElem_range]
  rw [hgd]
  rfl

theorem xrec_delta (n i : Nat) (a : Nat → Nat → ℚ) (yv : Nat → ℚ)
    (ha : ∀ x y, x < n → y < n → a x y = deltaF x y) (hi : i < n) :
    xrec a yv n i = yv i := by
  rw [xrec]
  have hsum : ((List.range' (i + 1) (n - (i + 1))).attach.map
      (fun k => a i k.1 * xrec a yv n k.1)).sum = 0 := by
    apply List.sum_eq_zero
    intro x hx
    obtain ⟨k, hk, rfl⟩ := List.mem_map.mp hx
    have hkm := List.mem_range'_1.mp k.2
    rw [ha i k.1 hi (by omega), deltaF_off i k.1 (by omega), zero_mul]
  rw [hsum, sub_zero, ha i i hi hi, deltaF_diag, div_one]

theorem toFlat_delta_rev (n : Nat) :
    (toFlat deltaF n n).reverse = toFlat deltaF n n := by
  apply List.ext_getElem
  · rw [List.length_reverse]
  · intro q h1 h2
    have hq : q < n * n := by rw [toFlat_length] at h2; exact h2
    rw [← List.getD_eq_getElem (toFlat deltaF n n).reverse 0 h1,
      ← List.getD_eq_getElem _ 0 h2]
    rcases Nat.eq_zero_or_pos n with h0 | h0
    · subst h0
      rw [Nat.mul_zero] at hq
      omega
    have hjlt : q % n < n := Nat.mod_lt q h0
    have hilt : q / n < n := (Nat.div_lt_iff_lt_mul h0).mpr hq
    have hqe : q = (q / n) * n + q % n := by
      rw [Nat.mul_comm]
      exact (Nat.div_add_mod q n).symm
    rw [hqe, toFlat_rev_getD deltaF n _ _ hilt hjlt,
      toFlat_getD _ _ _ _ (by rw [← hqe]; exact hq),
      flat_div n _ _ hjlt, flat_mod n _ _ hjlt]
    unfold deltaF
    by_cases hij : q / n = q % n
    · rw [if_pos (by omega), if_pos hij]
    · rw [if_neg (by omega), if_neg hij]

theorem sepConcat_cons (sep a : String) (l : List String) (hl : l ≠ []) :
    sepConcat sep (a :: l) = a ++ sep ++ sepConcat sep l := by
  cases l with
  | nil => exact absurd rfl hl
  | cons b bs => rfl

theorem foldSepT (g : Nat → String) (sep tail : String) (N : Nat) :
    ∀ (kk s : Nat) (acc : String), s + kk = N → 1 ≤ kk →
      (List.range' s kk).foldl
        (fun str x => str ++ g x ++ (if x = N - 1 then tail else sep)) acc
      = acc ++ sepConcat sep ((List.range' s kk).map g) ++ tail := by
  intro kk
  induction kk with
  | zero => intro s acc _ hk; exact absurd hk (by omega)
  | succ kk ih =>
    intro s acc hs _
    rcases Nat.eq_zero_or_pos kk with h0 | h0
    · subst h0
      have hr1 : List.range' s 1 = [s] := rfl
      rw [hr1, List.foldl_cons, List.foldl_nil, List.map_cons, List.map_nil,
        if_pos (by omega : s = N - 1)]
      rfl
    · have hr : List.range' s (kk + 1) = s :: List.range' (s + 1) kk := rfl
      rw [hr, List.foldl_cons, List.map_cons, if_neg (by omega : ¬s = N - 1)]
      rw [ih (s + 1) (acc ++ g s ++ sep) (by omega) h0]
      rw [sepConcat_cons sep (g s) _ (by
        intro hc
        have hlen := congrArg List.length hc
        simp [List.length_range'] at hlen
        omega)]
      simp [String.append_assoc]

theorem lupdecompose_eq_match (m : Matrix)
    (hsq : m.dims.get_rows = m.dims.get_cols) :
    lupdecompose m = (match lupGo m.dims.get_rows m.dims.get_rows 0
        (fun i j => m.entry i j) (List.range m.dims.get_rows) with
      | none => Except.ok none
      | some (w, p) => Except.ok (some
          ((⟨⟨m.dims.get_rows, m.dims.get_rows⟩,
            toFlat w m.dims.get_rows m.dims.get_rows⟩ : Matrix), p))) := by
  unfold lupdecompose
  rw [if_neg (fun hc => hc hsq)]

theorem lupdecompose_square_shape (m : Matrix)
    (hsq : m.dims.get_rows = m.dims.get_cols) :
    (∃ res, lupdecompose m = .ok res) ∧
      (∀ mat p, lupdecompose m = .ok (some (mat, p)) →
        mat.dims = ⟨m.dims.get_rows, m.dims.get_rows⟩) := by
  constructor
  · rw [lupdecompose_eq_match m hsq]
    cases hgo : lupGo m.dims.get_rows m.dims.get_rows 0
        (fun i j => m.entry i j) (List.range m.dims.get_rows) with
    | none => exact ⟨none, rfl⟩
    | some wp =>
      obtain ⟨w, p⟩ := wp
      exact ⟨some (⟨⟨m.dims.get_rows, m.dims.get_rows⟩,
        toFlat w m.dims.get_rows m.dims.get_rows⟩, p), rfl⟩
  · intro mat p h
    rw [lupdecompose_eq_match m hsq] at h
    revert h
    cases hgo : lupGo m.dims.get_rows m.dims.get_rows 0
        (fun i j => m.entry i j) (List.range m.dims.get_rows) with
    | none => intro h; simp at h
    | some wp =>
      obtain ⟨w, p2⟩ := wp
      intro h
      have h2 := Option.some.inj (Except.ok.inj h)
      have h3 := (Prod.mk.inj h2).1
      rw [← h3]

/-! Lemmas for the function-matrix algebra. -/

theorem list_sum_range (n : Nat) (f : Nat → ℚ) :
    ((List.range n).map f).sum = ∑ t ∈ Finset.range n, f t := by
  induction n with
  | zero => simp
  | succ n ih =>
    rw [List.range_succ, List.map_append, List.sum_append,
      Finset.sum_range_succ, ih]
    simp

theorem list_sum_range' (s len : Nat) (f : Nat → ℚ) :
    ((List.range' s len).map f).sum = ∑ t ∈ Finset.range len, f (s + t) := by
  rw [List.range'_eq_map_range, List.map_map, list_sum_range]
  rfl

theorem fmul_assoc_pt (n : Nat) (A B C : Nat → Nat → ℚ) (i j : Nat) :
    fmul n (fmul n A B) C i j = fmul n A (fmul n B C) i j := by
  unfold fmul
  simp only [Finset.sum_mul, Finset.mul_sum, mul_assoc]
  exact Finset.sum_comm

theorem fmul_congr {n : Nat} {A A2 B B2 : Nat → Nat → ℚ}
    (hA : EqOn n A A2) (hB : EqOn n B B2) :
    EqOn n (fmul n A B) (fmul n A2 B2) := by
  intro i j hi hj
  unfold fmul
  apply Finset.sum_congr rfl
  intro t ht
  rw [hA i t hi (Finset.mem_range.mp ht), hB t j (Finset.mem_range.mp ht) hj]

theorem EqOn.refl (n : Nat) (A : Nat → Nat → ℚ) : EqOn n A A :=
  fun _ _ _ _ => rfl

theorem EqOn.symm2 {n : Nat} {A B : Nat → Nat → ℚ} (h : EqOn n A B) :
    EqOn n B A := fun i j hi hj => (h i j hi hj).symm

theorem EqOn.trans2 {n : Nat} {A B C : Nat → Nat → ℚ}
    (h1 : EqOn n A B) (h2 : EqOn n B C) : EqOn n A C :=
  fun i j hi hj => (h1 i j hi hj).trans (h2 i j hi hj)

theorem fmul_id_left (n : Nat) (A : Nat → Nat → ℚ) :
    EqOn n (fmul n deltaF A) A := by
  intro i j hi hj
  unfold fmul
  rw [Finset.sum_eq_single_of_mem i (Finset.mem_range.mpr hi)]
  · rw [deltaF_diag, one_mul]
  · intro t _ hne
    rw [deltaF_off i t (Ne.symm hne), zero_mul]

theorem fmul_id_right (n : Nat) (A : Nat → Nat → ℚ) :
    EqOn n (fmul n A deltaF) A := by
  intro i j hi hj
  unfold fmul
  rw [Finset.sum_eq_single_of_mem j (Finset.mem_range.mpr hj)]
  · rw [deltaF_diag, mul_one]
  · intro t _ hne
    rw [deltaF_off t j hne, mul_zero]

theorem pfun_surj (n : Nat) (p : List Nat)
    (hran : ∀ i, i < n → pfun p i < n)
    (hinj : ∀ i1 i2, i1 < n → i2 < n → pfun p i1 = pfun p i2 → i1 = i2)
    (j : Nat) (hj : j < n) : ∃ i, i < n ∧ pfun p i = j := by
  obtain ⟨i, hi, he⟩ := Finset.surj_on_of_inj_on_of_card_le
    (fun i (_ : i ∈ Finset.range n) => pfun p i)
    (fun a ha => Finset.mem_range.mpr (hran a (Finset.mem_range.mp ha)))
    (fun a1 a2 h1 h2 he => hinj a1 a2 (Finset.mem_range.mp h1)
      (Finset.mem_range.mp h2) he)
    (le_refl _) j (Finset.mem_range.mpr hj)
  exact ⟨i, Finset.mem_range.mp hi, he.symm⟩

theorem permT_permM (n : Nat) (p : List Nat)
    (hran : ∀ i, i < n → pfun p i < n)
    (hinj : ∀ i1 i2, i1 < n → i2 < n → pfun p i1 = pfun p i2 → i1 = i2) :
    EqOn n (fmul n (permT p) (permM p)) deltaF := by
  intro i j hi hj
  unfold fmul permT permM
  by_cases hij : i = j
  · subst hij
    obtain ⟨t0, ht0n, ht0⟩ := pfun_surj n p hran hinj i hi
    rw [Finset.sum_eq_single_of_mem t0 (Finset.mem_range.mpr ht0n), ht0,
      deltaF_diag, one_mul]
    · intro b hb hbne
      have : pfun p b ≠ i := by
        intro hc
        exact hbne (hinj b t0 (Finset.mem_range.mp hb) ht0n (by rw [hc, ht0]))
      rw [deltaF_off _ _ this, zero_mul]
  · rw [deltaF_off i j hij]
    apply Finset.sum_eq_zero
    intro t _
    by_cases h1 : pfun p t = i
    · rw [deltaF_off (pfun p t) j (by omega), mul_zero]
    · rw [deltaF_off (pfun p t) i h1, zero_mul]

theorem permM_apply (n : Nat) (p : List Nat) (A : Nat → Nat → ℚ)
    (hran : ∀ i, i < n → pfun p i < n) :
    EqOn n (fmul n (permM p) A) (fun i j => A (pfun p i) j) := by
  intro i j hi hj
  unfold fmul permM
  rw [Finset.sum_eq_single_of_mem (pfun p i)
    (Finset.mem_range.mpr (hran i hi))]
  · rw [deltaF_diag, one_mul]
  · intro t _ hne
    rw [deltaF_off _ _ (Ne.symm hne), zero_mul]

/-! Lemmas on the permutation swap and the elimination/swap steps. -/

theorem getD_set_self (l : List Nat) (i a : Nat) (h : i < l.length) :
    (l.set i a).getD i 0 = a := by
  rw [List.getD_eq_getElem _ _ (by rw [List.length_set]; exact h)]
  exact List.getElem_set_self _

theorem getD_set_ne (l : List Nat) (i j a : Nat) (h : i ≠ j) :
    (l.set i a).getD j 0 = l.getD j 0 := by
  rcases Nat.lt_or_ge j l.length with hj | hj
  · rw [List.getD_eq_getElem _ _ (by rw [List.length_set]; exact hj),
      List.getD_eq_getElem _ _ hj]
    exact List.getElem_set_ne h _
  · rw [List.getD_eq_default _ _ (by rw [List.length_set]; exact hj),
      List.getD_eq_default _ _ hj]

theorem swapIdx_invol (k r t : Nat) : swapIdx k r (swapIdx k r t) = t := by
  unfold swapIdx
  split_ifs <;> omega

theorem swapIdx_lt {n k r t : Nat} (hk : k < n) (hr : r < n) (ht : t < n) :
    swapIdx k r t < n := by
  unfold swapIdx
  split_ifs <;> omega

theorem pfun_swap (p : List Nat) (k r : Nat) (hk : k < p.length)
    (hr : r < p.length) (i : Nat) :
    pfun ((p.set k (p.getD r 0)).set r (p.getD k 0)) i
      = pfun p (swapIdx k r i) := by
  unfold pfun swapIdx
  by_cases hir : i = r
  · subst hir
    rw [getD_set_self _ _ _ (by rw [List.length_set]; exact hr)]
    by_cases hik : i = k
    · rw [if_pos hik, hik]
    · rw [if_neg hik, if_pos rfl]
  · by_cases hik : i = k
    · subst hik
      rw [getD_set_ne _ _ _ _ (fun hc => hir hc.symm),
        getD_set_self _ _ _ hk, if_pos rfl]
    · rw [getD_set_ne _ _ _ _ (fun hc => hir hc.symm),
        getD_set_ne _ _ _ _ (fun hc => hik hc.symm),
        if_neg hik, if_neg hir]

theorem swapRowsF_eq (w : Nat → Nat → ℚ) (k r a b : Nat) :
    swapRowsF w k r a b = w (swapIdx k r a) b := by
  unfold swapRowsF swapIdx
  split_ifs <;> rfl

theorem Lmat_swap (n k r : Nat) (w : Nat → Nat → ℚ)
    (hkr : k ≤ r) (hrn : r < n) (i t : Nat) :
    Lmat k (swapRowsF w k r) i t = Lmat k w (swapIdx k r i) (swapIdx k r t) := by
  unfold Lmat
  rw [swapRowsF_eq]
  unfold swapIdx
  split_ifs <;> first | rfl | omega | (congr 1 <;> omega)

theorem Umat_swap (n k r : Nat) (w : Nat → Nat → ℚ)
    (hkr : k ≤ r) (hrn : r < n) (t j : Nat) :
    Umat k (swapRowsF w k r) t j = Umat k w (swapIdx k r t) j := by
  unfold Umat
  rw [swapRowsF_eq]
  unfold swapIdx
  split_ifs <;> first | rfl | omega | (congr 1 <;> omega)

theorem sum_swapIdx (n k r : Nat) (hk : k < n) (hr : r < n) (f : Nat → ℚ) :
    ∑ t ∈ Finset.range n, f (swapIdx k r t) = ∑ t ∈ Finset.range n, f t := by
  exact Finset.sum_bij' (fun a _ => swapIdx k r a) (fun a _ => swapIdx k r a)
    (fun a ha => Finset.mem_range.mpr
      (swapIdx_lt hk hr (Finset.mem_range.mp ha)))
    (fun a ha => Finset.mem_range.mpr
      (swapIdx_lt hk hr (Finset.mem_range.mp ha)))
    (fun a _ => swapIdx_invol k r a)
    (fun a _ => swapIdx_invol k r a)
    (fun a _ => rfl)

theorem innerElim_other (i k : Nat) (mult : ℚ) (l : List Nat)
    (w0 : Nat → Nat → ℚ) (x y : Nat) (h : x ≠ i ∨ y ∉ l) :
    (l.foldl (fun w2 jj => setE w2 i jj (w2 i jj - mult * w2 k jj)) w0) x y
      = w0 x y := by
  induction l generalizing w0 with
  | nil => rfl
  | cons jj js ih =>
    rw [List.foldl_cons]
    have h2 : x ≠ i ∨ y ∉ js := by
      rcases h with h | h
      · exact Or.inl h
      · exact Or.inr (fun hc => h (List.mem_cons_of_mem _ hc))
    rw [ih _ h2]
    apply setE_ne
    rcases h with h | h
    · exact Or.inl h
    · exact Or.inr (fun hc => h (hc ▸ List.mem_cons_self jj js))

theorem innerElim_at (i k : Nat) (hki : k ≠ i) (mult : ℚ) :
    ∀ (l : List Nat), l.Nodup → k ∉ l → ∀ (w0 : Nat → Nat → ℚ),
      ∀ j ∈ l,
        (l.foldl (fun w2 jj => setE w2 i jj (w2 i jj - mult * w2 k jj)) w0) i j
          = w0 i j - mult * w0 k j := by
  intro l
  induction l with
  | nil => intro _ _ w0 j hj; simp at hj
  | cons jj js ih =>
    intro hnd hk w0 j hj
    rw [List.foldl_cons]
    rcases List.mem_cons.mp hj with hjj | hjs
    · subst hjj
      rw [innerElim_other i k mult js _ i j
        (Or.inr (List.nodup_cons.mp hnd).1)]
      rw [setE_at]
    · have hne : j ≠ jj := fun hc => (List.nodup_cons.mp hnd).1 (hc ▸ hjs)
      rw [ih (List.nodup_cons.mp hnd).2
        (fun hc => hk (List.mem_cons_of_mem _ hc)) _ j hjs]
      rw [setE_ne _ _ _ _ _ _ (Or.inr hne),
        setE_ne _ _ _ _ _ _ (Or.inl hki)]

theorem elimOuter_other (k : Nat) (inner : List Nat) :
    ∀ (l : List Nat) (w0 : Nat → Nat → ℚ) (x : Nat), x ∉ l → ∀ (y : Nat),
      (l.foldl (fun wa i0 =>
        inner.foldl
          (fun w2 jj => setE w2 i0 jj (w2 i0 jj - (wa i0 k / wa k k) * w2 k jj))
          (setE wa i0 k (wa i0 k / wa k k))) w0) x y = w0 x y := by
  intro l
  induction l with
  | nil => intro w0 x _ y; rfl
  | cons i0 is ih =>
    intro w0 x hx y
    rw [List.foldl_cons, ih _ x (fun hc => hx (List.mem_cons_of_mem _ hc)) y]
    have hxi : x ≠ i0 := fun hc => hx (hc ▸ List.mem_cons_self _ _)
    rw [innerElim_other i0 k _ inner _ x y (Or.inl hxi),
      setE_ne _ _ _ _ _ _ (Or.inl hxi)]

theorem elimOuter_col (k : Nat) (inner : List Nat) :
    ∀ (l : List Nat) (w0 : Nat → Nat → ℚ) (x y : Nat), y ≠ k → y ∉ inner →
      (l.foldl (fun wa i0 =>
        inner.foldl
          (fun w2 jj => setE w2 i0 jj (w2 i0 jj - (wa i0 k / wa k k) * w2 k jj))
          (setE wa i0 k (wa i0 k / wa k k))) w0) x y = w0 x y := by
  intro l
  induction l with
  | nil => intro w0 x y _ _; rfl
  | cons i0 is ih =>
    intro w0 x y hyk hyin
    rw [List.foldl_cons, ih _ x y hyk hyin]
    rw [innerElim_other i0 k _ inner _ x y (Or.inr hyin),
      setE_ne _ _ _ _ _ _ (Or.inr hyk)]

theorem elimOuter_row (k : Nat) (inner : List Nat) (hndI : inner.Nodup)
    (hkI : k ∉ inner) (i : Nat) (hki : k ≠ i) (l1 l2 : List Nat)
    (w : Nat → Nat → ℚ) (hi1 : i ∉ l1) (hi2 : i ∉ l2) (hk1 : k ∉ l1) :
    (((l1 ++ i :: l2).foldl (fun wa i0 =>
        inner.foldl
          (fun w2 jj => setE w2 i0 jj (w2 i0 jj - (wa i0 k / wa k k) * w2 k jj))
          (setE wa i0 k (wa i0 k / wa k k))) w) i k = w i k / w k k) ∧
      (∀ j ∈ inner,
        ((l1 ++ i :: l2).foldl (fun wa i0 =>
          inner.foldl
            (fun w2 jj => setE w2 i0 jj (w2 i0 jj - (wa i0 k / wa k k) * w2 k jj))
            (setE wa i0 k (wa i0 k / wa k k))) w) i j
          = w i j - (w i k / w k k) * w k j) := by
  rw [List.foldl_append, List.foldl_cons]
  have hr1 : ∀ y, (l1.foldl (fun wa i0 =>
      inner.foldl
        (fun w2 jj => setE w2 i0 jj (w2 i0 jj - (wa i0 k / wa k k) * w2 k jj))
        (setE wa i0 k (wa i0 k / wa k k))) w) i y = w i y :=
    fun y => elimOuter_other k inner l1 w i hi1 y
  have hrk : ∀ y, (l1.foldl (fun wa i0 =>
      inner.foldl
        (fun w2 jj => setE w2 i0 jj (w2 i0 jj - (wa i0 k / wa k k) * w2 k jj))
        (setE wa i0 k (wa i0 k / wa k k))) w) k y = w k y :=
    fun y => elimOuter_other k inner l1 w k hk1 y
  constructor
  · rw [elimOuter_other k inner l2 _ i hi2 k,
      innerElim_other i k _ inner _ i k (Or.inr hkI), setE_at, hr1 k, hrk k]
  · intro j hj
    rw [elimOuter_other k inner l2 _ i hi2 j,
      innerElim_at i k hki _ inner hndI hkI _ j hj]
    have hjk : j ≠ k := fun hc => hkI (hc ▸ hj)
    rw [setE_ne _ _ _ _ _ _ (Or.inr hjk), setE_ne _ _ _ _ _ _ (Or.inl hki),
      hr1 j, hrk j, hr1 k, hrk k]

theorem elimStep_preserve_row (n k : Nat) (w : Nat → Nat → ℚ) (x y : Nat)
    (hx : x ∉ List.range' (k + 1) (n - (k + 1))) :
    elimStep n k w x y = w x y := by
  unfold elimStep
  exact elimOuter_other k _ _ w x hx y

theorem elimStep_preserve_col (n k : Nat) (w : Nat → Nat → ℚ) (x y : Nat)
    (hyk : y ≠ k) (hy : y ∉ List.range' (k + 1) (n - (k + 1))) :
    elimStep n k w x y = w x y := by
  unfold elimStep
  exact elimOuter_col k _ _ w x y hyk hy

theorem elimStep_row_entries (n k : Nat) (w : Nat → Nat → ℚ) (i : Nat)
    (hi : i ∈ List.range' (k + 1) (n - (k + 1))) :
    elimStep n k w i k = w i k / w k k ∧
      ∀ j ∈ List.range' (k + 1) (n - (k + 1)),
        elimStep n k w i j = w i j - (w i k / w k k) * w k j := by
  have hki : k ≠ i := by
    have := List.mem_range'_1.mp hi
    omega
  have hkI : k ∉ List.range' (k + 1) (n - (k + 1)) := by
    intro hc
    have := List.mem_range'_1.mp hc
    omega
  have hndI : (List.range' (k + 1) (n - (k + 1))).Nodup :=
    List.nodup_range' _ _
  obtain ⟨l1, l2, hsp⟩ := List.append_of_mem hi
  have hnd2 : (l1 ++ i :: l2).Nodup := hsp ▸ hndI
  have hi1 : i ∉ l1 := by
    intro hc
    exact (List.disjoint_of_nodup_append hnd2) hc (List.mem_cons_self _ _)
  have hi2 : i ∉ l2 := by
    have := (List.Nodup.of_append_right hnd2)
    exact (List.nodup_cons.mp this).1
  have hk1 : k ∉ l1 := by
    intro hc
    exact hkI (hsp ▸ List.mem_append_left _ hc)
  unfold elimStep
  rw [show List.foldl (fun w0 i0 =>
      (List.range' (k + 1) (n - (k + 1))).foldl
        (fun w2 jj => setE w2 i0 jj (w2 i0 jj - (w0 i0 k / w0 k k) * w2 k jj))
        (setE w0 i0 k (w0 i0 k / w0 k k))) w (List.range' (k + 1) (n - (k + 1)))
    = List.foldl (fun w0 i0 =>
      (List.range' (k + 1) (n - (k + 1))).foldl
        (fun w2 jj => setE w2 i0 jj (w2 i0 jj - (w0 i0 k / w0 k k) * w2 k jj))
        (setE w0 i0 k (w0 i0 k / w0 k k))) w (l1 ++ i :: l2) from by rw [← hsp]]
  exact elimOuter_row k _ hndI hkI i hki l1 l2 w hi1 hi2 hk1

theorem sum_delta_left (n i : Nat) (hi : i < n) (f : Nat → ℚ) :
    ∑ t ∈ Finset.range n, deltaF i t * f t = f i := by
  rw [Finset.sum_eq_single_of_mem i (Finset.mem_range.mpr hi)]
  · rw [deltaF_diag, one_mul]
  · intro t _ hne
    rw [deltaF_off i t (Ne.symm hne), zero_mul]

theorem sum_delta_right (n j : Nat) (hj : j < n) (f : Nat → ℚ) :
    ∑ t ∈ Finset.range n, f t * deltaF t j = f j := by
  rw [Finset.sum_eq_single_of_mem j (Finset.mem_range.mpr hj)]
  · rw [deltaF_diag, mul_one]
  · intro t _ hne
    rw [deltaF_off t j hne, mul_zero]

theorem elimE_split (n k : Nat) (mult : Nat → ℚ) (sgn : ℚ) (i t : Nat) :
    elimE n k mult sgn i t
      = deltaF i t + (if t = k ∧ k < i ∧ i < n then sgn * mult i else 0) := by
  unfold elimE deltaF
  split_ifs <;> first | omega | ring

theorem elimE_inv_mul (n k : Nat) (mult : Nat → ℚ) :
    EqOn n (fmul n (elimE n k mult 1) (elimE n k mult (-1))) deltaF := by
  intro i j hi hj
  unfold fmul
  have he : ∀ t, elimE n k mult 1 i t * elimE n k mult (-1) t j
      = deltaF i t * deltaF t j
        + deltaF i t * (if j = k ∧ k < t ∧ t < n then (-1) * mult t else 0)
        + ((if t = k ∧ k < i ∧ i < n then (1 : ℚ) * mult i else 0) * deltaF t j
        + (if t = k ∧ k < i ∧ i < n then (1 : ℚ) * mult i else 0)
            * (if j = k ∧ k < t ∧ t < n then (-1) * mult t else 0)) := by
    intro t
    rw [elimE_split n k mult 1 i t, elimE_split n k mult (-1) t j]
    ring
  rw [Finset.sum_congr rfl (fun t _ => he t), Finset.sum_add_distrib,
    Finset.sum_add_distrib, Finset.sum_add_distrib]
  rw [sum_delta_left n i hi, sum_delta_left n i hi, sum_delta_right n j hj]
  rw [Finset.sum_eq_zero (by
    intro t _
    by_cases htk : t = k
    · subst htk
      rw [if_neg (by omega : ¬(j = t ∧ t < t ∧ t < n)), mul_zero]
    · rw [if_neg (fun hc => htk hc.1), zero_mul])]
  by_cases hC : j = k ∧ k < i ∧ i < n
  · rw [if_pos hC, if_pos hC]
    ring
  · rw [if_neg hC, if_neg hC]
    ring

/-! Unit lower-triangular matrices and their inverses. -/

theorem lowInv_strict_upper (n : Nat) (L : Nat → Nat → ℚ) :
    ∀ i, i < n → ∀ j, i < j → lowInv n L i j = 0 := by
  intro i
  induction i using Nat.strong_induction_on with
  | _ i ih =>
    intro hi j hij
    unfold lowInv
    rw [yrec]
    have hseed : (List.range n).getD i 0 = i := by
      rw [List.getD_eq_getElem _ _ (by rw [List.length_range]; exact hi),
        List.getElem_range]
    rw [hseed, if_neg (by omega)]
    rw [List.sum_eq_zero (by
      intro x hx
      obtain ⟨k, hk, rfl⟩ := List.mem_map.mp hx
      have hki : k.1 < i := List.mem_range.mp k.2
      have := ih k.1 hki (by omega) j (by omega)
      unfold lowInv at this
      rw [this, mul_zero])]
    rw [sub_zero]

theorem lowInv_diag (n : Nat) (L : Nat → Nat → ℚ) :
    ∀ i, i < n → lowInv n L i i = 1 := by
  intro i hi
  unfold lowInv
  rw [yrec]
  have hseed : (List.range n).getD i 0 = i := by
    rw [List.getD_eq_getElem _ _ (by rw [List.length_range]; exact hi),
      List.getElem_range]
  rw [hseed, if_pos rfl]
  rw [List.sum_eq_zero (by
    intro x hx
    obtain ⟨k, hk, rfl⟩ := List.mem_map.mp hx
    have hki : k.1 < i := List.mem_range.mp k.2
    have := lowInv_strict_upper n L k.1 (by omega) i hki
    unfold lowInv at this
    rw [this, mul_zero])]
  rw [sub_zero]

theorem low_mul_lowInv (n : Nat) (L : Nat → Nat → ℚ)
    (hdiag : ∀ i, i < n → L i i = 1)
    (hupper : ∀ i t, i < n → i < t → L i t = 0) :
    EqOn n (fmul n L (lowInv n L)) deltaF := by
  intro i j hi hj
  unfold fmul
  rw [← Finset.sum_subset (Finset.range_subset.mpr (show i + 1 ≤ n from hi))
    (fun t ht htn => by
      have h1 := Finset.mem_range.mp ht
      have h2 : ¬t < i + 1 := fun hc => htn (Finset.mem_range.mpr hc)
      rw [hupper i t hi (by omega), zero_mul])]
  rw [Finset.sum_range_succ, hdiag i hi, one_mul]
  have hrec : lowInv n L i j
      = (if i = j then 1 else 0) - ∑ k ∈ Finset.range i, L i k * lowInv n L k j := by
    unfold lowInv
    rw [yrec]
    have hseed : (List.range n).getD i 0 = i := by
      rw [List.getD_eq_getElem _ _ (by rw [List.length_range]; exact hi),
        List.getElem_range]
    rw [hseed,
      List.attach_map_val (List.range i)
        (fun x => L i x * yrec L (List.range n) j x),
      list_sum_range]
  rw [hrec]
  unfold deltaF
  ring

theorem lowInv_mul_low (n : Nat) (L : Nat → Nat → ℚ)
    (hdiag : ∀ i, i < n → L i i = 1)
    (hupper : ∀ i t, i < n → i < t → L i t = 0) :
    EqOn n (fmul n (lowInv n L) L) deltaF := by
  have h1 : EqOn n (fmul n (lowInv n L) (lowInv n (lowInv n L))) deltaF :=
    low_mul_lowInv n (lowInv n L) (lowInv_diag n L)
      (fun i t hi hit => lowInv_strict_upper n L i hi t hit)
  have hLM : EqOn n (fmul n L (lowInv n L)) deltaF :=
    low_mul_lowInv n L hdiag hupper
  have hLR : EqOn n L (lowInv n (lowInv n L)) := by
    intro i j hi hj
    calc L i j = fmul n L deltaF i j := (fmul_id_right n L i j hi hj).symm
    _ = fmul n L (fmul n (lowInv n L) (lowInv n (lowInv n L))) i j :=
        fmul_congr (EqOn.refl n L) (EqOn.symm2 h1) i j hi hj
    _ = fmul n (fmul n L (lowInv n L)) (lowInv n (lowInv n L)) i j :=
        (fmul_assoc_pt n L (lowInv n L) (lowInv n (lowInv n L)) i j).symm
    _ = fmul n deltaF (lowInv n (lowInv n L)) i j :=
        fmul_congr hLM (EqOn.refl n _) i j hi hj
    _ = lowInv n (lowInv n L) i j := fmul_id_left n _ i j hi hj
  intro i j hi hj
  calc fmul n (lowInv n L) L i j
      = fmul n (lowInv n L) (lowInv n (lowInv n L)) i j :=
        fmul_congr (EqOn.refl n _) hLR i j hi hj
  _ = deltaF i j := h1 i j hi hj

theorem Lmat_diag (k : Nat) (w : Nat → Nat → ℚ) (i : Nat) :
    Lmat k w i i = 1 := by
  unfold Lmat
  rw [if_pos rfl]

theorem Lmat_upper (k : Nat) (w : Nat → Nat → ℚ) (i t : Nat) (h : i < t) :
    Lmat k w i t = 0 := by
  unfold Lmat
  rw [if_neg (by omega), if_neg (by omega)]

/-! The pigeonhole obstruction: an m × (m-1) matrix cannot have an
(m-1) × m right factor multiplying to the m × m identity. -/

theorem no_wide_right_inverse (m : Nat) (hm : 1 ≤ m)
    (B C : Nat → Nat → ℚ)
    (hBC : ∀ a b, a < m → b < m →
      (∑ t ∈ Finset.range (m - 1), B a t * C t b) = deltaF a b) :
    False := by
  have hBC2 : ∀ a b : Fin m,
      (∑ t : Fin (m - 1), B a.1 t.1 * C t.1 b.1) = deltaF a.1 b.1 := by
    intro a b
    rw [Fin.sum_univ_eq_sum_range (fun t => B a.1 t * C t b.1) (m - 1)]
    exact hBC a.1 b.1 a.2 b.2
  have hLI : LinearIndependent ℚ (fun a : Fin m => (fun t : Fin (m - 1) => B a.1 t.1)) := by
    rw [Fintype.linearIndependent_iff]
    intro g hg a
    have hcomp : ∀ t : Fin (m - 1), (∑ a2 : Fin m, g a2 * B a2.1 t.1) = 0 := by
      intro t
      have h2 := congrFun hg t
      simpa using h2
    have hga : g a = ∑ a2 : Fin m, g a2 * deltaF a2.1 a.1 := by
      rw [Finset.sum_eq_single_of_mem a (Finset.mem_univ a)]
      · rw [deltaF_diag, mul_one]
      · intro b _ hbne
        rw [deltaF_off b.1 a.1 (fun hc => hbne (Fin.ext hc)), mul_zero]
    rw [hga]
    calc ∑ a2 : Fin m, g a2 * deltaF a2.1 a.1
        = ∑ a2 : Fin m, g a2 * ∑ t : Fin (m - 1), B a2.1 t.1 * C t.1 a.1 := by
          apply Finset.sum_congr rfl
          intro a2 _
          rw [hBC2 a2 a]
    _ = ∑ a2 : Fin m, ∑ t : Fin (m - 1), g a2 * B a2.1 t.1 * C t.1 a.1 := by
          apply Finset.sum_congr rfl
          intro a2 _
          rw [Finset.mul_sum]
          apply Finset.sum_congr rfl
          intro t _
          ring
    _ = ∑ t : Fin (m - 1), ∑ a2 : Fin m, g a2 * B a2.1 t.1 * C t.1 a.1 :=
          Finset.sum_comm
    _ = ∑ t : Fin (m - 1), (∑ a2 : Fin m, g a2 * B a2.1 t.1) * C t.1 a.1 := by
          apply Finset.sum_congr rfl
          intro t _
          rw [Finset.sum_mul]
    _ = 0 := by
          apply Finset.sum_eq_zero
          intro t _
          rw [hcomp t, zero_mul]
  have hcard := hLI.fintype_card_le_finrank
  rw [Module.finrank_fin_fun ℚ, Fintype.card_fin] at hcard
  omega

/-! Pivot search: the fold returns the position and value of a maximal
absolute entry of the pivot column. -/

theorem pivotFold_ge_init (w : Nat → Nat → ℚ) (kcol : Nat) :
    ∀ (l : List Nat) (b : Nat × ℚ),
      b.2 ≤ (l.foldl
        (fun best i => if |w i kcol| > best.2 then (i, |w i kcol|) else best) b).2 := by
  intro l
  induction l with
  | nil => intro b; exact le_refl _
  | cons i is ih =>
    intro b
    rw [List.foldl_cons]
    refine le_trans ?_ (ih _)
    by_cases h : |w i kcol| > b.2
    · rw [if_pos h]
      exact le_of_lt h
    · rw [if_neg h]

theorem pivotFold_ge_mem (w : Nat → Nat → ℚ) (kcol : Nat) :
    ∀ (l : List Nat) (b : Nat × ℚ) (i : Nat), i ∈ l →
      |w i kcol| ≤ (l.foldl
        (fun best i2 => if |w i2 kcol| > best.2 then (i2, |w i2 kcol|) else best) b).2 := by
  intro l
  induction l with
  | nil => intro b i hi; simp at hi
  | cons i0 is ih =>
    intro b i hi
    rw [List.foldl_cons]
    rcases List.mem_cons.mp hi with h | h
    · subst h
      refine le_trans ?_ (pivotFold_ge_init w kcol is _)
      by_cases hc : |w i kcol| > b.2
      · rw [if_pos hc]
      · rw [if_neg hc]
        exact le_of_not_lt hc
    · exact ih _ i h

theorem pivotFold_mem (w : Nat → Nat → ℚ) (kcol : Nat) :
    ∀ (l : List Nat) (b : Nat × ℚ),
      (l.foldl (fun best i => if |w i kcol| > best.2 then (i, |w i kcol|) else best) b) = b
      ∨ ((l.foldl (fun best i => if |w i kcol| > best.2 then (i, |w i kcol|) else best) b).1 ∈ l
        ∧ (l.foldl (fun best i => if |w i kcol| > best.2 then (i, |w i kcol|) else best) b).2
          = |w (l.foldl (fun best i => if |w i kcol| > best.2 then (i, |w i kcol|) else best) b).1 kcol|) := by
  intro l
  induction l with
  | nil => intro b; exact Or.inl rfl
  | cons i0 is ih =>
    intro b
    rw [List.foldl_cons]
    rcases ih (if |w i0 kcol| > b.2 then (i0, |w i0 kcol|) else b) with h | h
    · rw [h]
      by_cases hc : |w i0 kcol| > b.2
      · rw [if_pos hc]
        exact Or.inr ⟨List.mem_cons_self _ _, rfl⟩
      · rw [if_neg hc]
        exact Or.inl rfl
    · exact Or.inr ⟨List.mem_cons_of_mem _ h.1, h.2⟩

theorem pivotSearch_spec (w : Nat → Nat → ℚ) (n k : Nat) (hk : k < n) :
    k ≤ (pivotSearch w n k).1 ∧ (pivotSearch w n k).1 < n ∧
      (pivotSearch w n k).2 = |w (pivotSearch w n k).1 k| ∧
      ∀ i, k ≤ i → i < n → |w i k| ≤ (pivotSearch w n k).2 := by
  have hmem := pivotFold_mem w k (List.range' (k + 1) (n - (k + 1))) (k, |w k k|)
  have hinit := pivotFold_ge_init w k (List.range' (k + 1) (n - (k + 1))) (k, |w k k|)
  have hge := pivotFold_ge_mem w k (List.range' (k + 1) (n - (k + 1))) (k, |w k k|)
  have hbound : ∀ i, k ≤ i → i < n → |w i k| ≤ (pivotSearch w n k).2 := by
    intro i hki hin
    rcases Nat.eq_or_lt_of_le hki with he | hlt
    · rw [← he]
      exact hinit
    · exact hge i (List.mem_range'_1.mpr (by omega))
  rcases hmem with h | h
  · have hps : pivotSearch w n k = (k, |w k k|) := h
    rw [hps] at hbound
    rw [hps]
    exact ⟨le_refl k, hk, rfl, hbound⟩
  · have hm := List.mem_range'_1.mp h.1
    exact ⟨by unfold pivotSearch; omega, by unfold pivotSearch; omega,
      by unfold pivotSearch; exact h.2, hbound⟩

/-! The elimination step as multiplication by an elementary matrix. -/

theorem Lmat_mul_elimE (n k : Nat) (hk : k < n) (w1 : Nat → Nat → ℚ) :
    EqOn n (fmul n (Lmat k w1) (elimE n k (fun i2 => w1 i2 k / w1 k k) 1))
      (Lmat (k + 1) (elimStep n k w1)) := by
  intro i j hi hj
  unfold fmul
  have he : ∀ t, Lmat k w1 i t * elimE n k (fun i2 => w1 i2 k / w1 k k) 1 t j
      = Lmat k w1 i t * deltaF t j
        + Lmat k w1 i t
            * (if j = k ∧ k < t ∧ t < n then (1 : ℚ) * (w1 t k / w1 k k) else 0) := by
    intro t
    rw [elimE_split]
    ring
  rw [Finset.sum_congr rfl (fun t _ => he t), Finset.sum_add_distrib,
    sum_delta_right n j hj]
  have h2 : (∑ t ∈ Finset.range n, Lmat k w1 i t
      * (if j = k ∧ k < t ∧ t < n then (1 : ℚ) * (w1 t k / w1 k k) else 0))
      = if j = k ∧ k < i ∧ i < n then w1 i k / w1 k k else 0 := by
    by_cases hjk : j = k
    · rw [Finset.sum_eq_single_of_mem i (Finset.mem_range.mpr hi)]
      · rw [Lmat_diag k w1 i, one_mul]
        split_ifs <;> first | omega | ring
      · intro t _ htne
        by_cases hcond : k < t ∧ t < n
        · rw [show Lmat k w1 i t = 0 from by
            unfold Lmat
            rw [if_neg (fun hc => htne hc.symm), if_neg (by omega)], zero_mul]
        · rw [if_neg (by tauto), mul_zero]
    · rw [Finset.sum_eq_zero
        (fun t _ => by rw [if_neg (fun hc => hjk hc.1), mul_zero]),
        if_neg (fun hc => hjk hc.1)]
  rw [h2]
  by_cases hjk : j = k
  · rw [hjk]
    by_cases hki : k < i
    · have hmem : i ∈ List.range' (k + 1) (n - (k + 1)) :=
        List.mem_range'_1.mpr (by omega)
      have hcell := (elimStep_row_entries n k w1 i hmem).1
      have hL0 : Lmat k w1 i k = 0 := by
        unfold Lmat
        rw [if_neg (by omega), if_neg (by omega)]
      rw [hL0, zero_add, if_pos ⟨rfl, hki, hi⟩]
      unfold Lmat
      rw [if_neg (by omega), if_pos (by omega), hcell]
    · rw [if_neg (by omega), add_zero]
      unfold Lmat
      split_ifs <;> first | rfl | omega
  · rw [if_neg (fun hc => hjk hc.1), add_zero]
    have hw : j < k → elimStep n k w1 i j = w1 i j := fun hjlt =>
      elimStep_preserve_col n k w1 i j hjk
        (fun hc => by have := List.mem_range'_1.mp hc; omega)
    unfold Lmat
    split_ifs <;> first | rfl | omega | (exact (hw (by omega)).symm)

theorem elimE_mul_Umat (n k : Nat) (hk : k < n) (w1 : Nat → Nat → ℚ)
    (hpivot : w1 k k ≠ 0) :
    EqOn n (fmul n (elimE n k (fun i2 => w1 i2 k / w1 k k) (-1)) (Umat k w1))
      (Umat (k + 1) (elimStep n k w1)) := by
  intro i j hi hj
  unfold fmul
  have he : ∀ t, elimE n k (fun i2 => w1 i2 k / w1 k k) (-1) i t * Umat k w1 t j
      = deltaF i t * Umat k w1 t j
        + (if t = k ∧ k < i ∧ i < n then (-1 : ℚ) * (w1 i k / w1 k k) else 0)
            * Umat k w1 t j := by
    intro t
    rw [elimE_split]
    ring
  rw [Finset.sum_congr rfl (fun t _ => he t), Finset.sum_add_distrib,
    sum_delta_left n i hi]
  have h2 : (∑ t ∈ Finset.range n,
      (if t = k ∧ k < i ∧ i < n then (-1 : ℚ) * (w1 i k / w1 k k) else 0)
        * Umat k w1 t j)
      = if k < i ∧ i < n then (-1 : ℚ) * (w1 i k / w1 k k) * Umat k w1 k j
        else 0 := by
    by_cases hcond : k < i ∧ i < n
    · rw [Finset.sum_eq_single_of_mem k (Finset.mem_range.mpr hk)]
      · rw [if_pos ⟨rfl, hcond.1, hcond.2⟩, if_pos hcond]
      · intro t _ htne
        rw [if_neg (fun hc => htne hc.1), zero_mul]
    · rw [Finset.sum_eq_zero
        (fun t _ => by rw [if_neg (by tauto), zero_mul]), if_neg hcond]
  rw [h2]
  by_cases hcond : k < i ∧ i < n
  · rw [if_pos hcond]
    have hmem : i ∈ List.range' (k + 1) (n - (k + 1)) :=
      List.mem_range'_1.mpr (by omega)
    by_cases hjk : j = k
    · rw [hjk]
      unfold Umat
      rw [if_neg (by omega), if_neg (by omega), if_pos (by omega)]
      have hc := div_mul_cancel₀ (w1 i k) hpivot
      rw [mul_assoc, hc]
      ring
    · rcases Nat.lt_or_ge j k with hj2 | hj2
      · unfold Umat
        rw [if_pos ⟨hj2, by omega⟩, if_pos ⟨hj2, hj2⟩, if_pos ⟨by omega, by omega⟩]
        ring
      · have hjgt : k < j := by omega
        have hj3 := (elimStep_row_entries n k w1 i hmem).2 j
          (List.mem_range'_1.mpr (by omega))
        unfold Umat
        rw [if_neg (by omega), if_neg (by omega), if_neg (by omega), hj3]
        ring
  · rw [if_neg hcond, add_zero]
    have hrow : elimStep n k w1 i j = w1 i j :=
      elimStep_preserve_row n k w1 i j
        (fun hc => by have := List.mem_range'_1.mp hc; omega)
    unfold Umat
    split_ifs <;> first | rfl | omega | (exact hrow.symm)

theorem swap_preserves_fact (n : Nat) (A : Nat → Nat → ℚ) (k : Nat)
    (w : Nat → Nat → ℚ) (p : List Nat) (r : Nat)
    (hk : k < n) (hkr : k ≤ r) (hr : r < n) (hplen : p.length = n)
    (hfact : ∀ i j, i < n → j < n →
      fmul n (Lmat k w) (Umat k w) i j = A (pfun p i) j) :
    ∀ i j, i < n → j < n →
      fmul n (Lmat k (swapRowsF w k r)) (Umat k (swapRowsF w k r)) i j
        = A (pfun ((p.set k (p.getD r 0)).set r (p.getD k 0)) i) j := by
  intro i j hi hj
  rw [pfun_swap p k r (by omega) (by omega) i]
  unfold fmul
  calc (∑ t ∈ Finset.range n,
      Lmat k (swapRowsF w k r) i t * Umat k (swapRowsF w k r) t j)
      = ∑ t ∈ Finset.range n,
        Lmat k w (swapIdx k r i) (swapIdx k r t) * Umat k w (swapIdx k r t) j := by
        apply Finset.sum_congr rfl
        intro t _
        rw [Lmat_swap n k r w hkr hr, Umat_swap n k r w hkr hr]
  _ = ∑ t ∈ Finset.range n, Lmat k w (swapIdx k r i) t * Umat k w t j :=
        sum_swapIdx n k r hk hr
          (fun t => Lmat k w (swapIdx k r i) t * Umat k w t j)
  _ = A (pfun p (swapIdx k r i)) j :=
        hfact (swapIdx k r i) j (swapIdx_lt hk hr hi) hj

theorem permM_permT (n : Nat) (p : List Nat)
    (hran : ∀ i, i < n → pfun p i < n)
    (hinj : ∀ i1 i2, i1 < n → i2 < n → pfun p i1 = pfun p i2 → i1 = i2) :
    EqOn n (fmul n (permM p) (permT p)) deltaF := by
  intro i j hi hj
  unfold fmul permM permT
  by_cases hij : i = j
  · subst hij
    rw [Finset.sum_eq_single_of_mem (pfun p i)
      (Finset.mem_range.mpr (hran i hi))]
    · rw [deltaF_diag, one_mul, deltaF_diag]
    · intro t _ htne
      rw [deltaF_off (pfun p i) t (Ne.symm htne), zero_mul]
  · rw [deltaF_off i j hij]
    apply Finset.sum_eq_zero
    intro t _
    by_cases h1 : pfun p i = t
    · have h2 : pfun p j ≠ t := by
        intro hc
        exact hij (hinj i j hi hj (by rw [h1, hc]))
      rw [deltaF_off (pfun p j) t h2, mul_zero]
    · rw [deltaF_off (pfun p i) t h1, zero_mul]

theorem pfun_range (n i : Nat) (hi : i < n) : pfun (List.range n) i = i := by
  unfold pfun
  rw [List.getD_eq_getElem _ _ (by rw [List.length_range]; exact hi),
    List.getElem_range]

/-- Unfolding equation for the pivot loop at a remaining count of
`rem + 1`. -/
theorem lupGo_succ (n rem k : Nat) (w : Nat → Nat → ℚ) (p : List Nat) :
    lupGo n (rem + 1) k w p =
      if (pivotSearch w n k).2 = 0 then none
      else lupGo n rem (k + 1)
        (elimStep n k (if (pivotSearch w n k).1 ≠ k
          then swapRowsF w k (pivotSearch w n k).1 else w))
        (if (pivotSearch w n k).1 ≠ k
          then (p.set k (p.getD (pivotSearch w n k).1 0)).set
            (pivotSearch w n k).1 (p.getD k 0)
          else p) := rfl

/-- The forward-substitution recurrence with its sum written over a
`Finset` range. -/
theorem yrec_finset (a : Nat → Nat → ℚ) (p : List Nat) (j i : Nat) :
    yrec a p j i = (if p.getD i 0 = j then 1 else 0)
      - ∑ t ∈ Finset.range i, a i t * yrec a p j t := by
  conv_lhs => rw [yrec]
  rw [List.attach_map_val (List.range i) (fun x => a i x * yrec a p j x),
    list_sum_range]

/-- The back-substitution recurrence with its sum written over a
`Finset` range. -/
theorem xrec_finset (a : Nat → Nat → ℚ) (yv : Nat → ℚ) (dim i : Nat) :
    xrec a yv dim i = (yv i - ∑ t ∈ Finset.range (dim - (i + 1)),
      a i (i + 1 + t) * xrec a yv dim (i + 1 + t)) / a i i := by
  conv_lhs => rw [xrec]
  rw [List.attach_map_val (List.range' (i + 1) (dim - (i + 1)))
    (fun x => a i x * xrec a yv dim x), list_sum_range']

/-- Forward substitution solves the unit lower-triangular system: the
product of the `L` factor with the `yrec` vector for column `j` is the
permuted unit vector. -/
theorem forward_solve (n : Nat) (w2 a : Nat → Nat → ℚ) (p : List Nat)
    (j : Nat) (hAw : ∀ x y, x < n → y < n → a x y = w2 x y)
    (i : Nat) (hi : i < n) :
    ∑ t ∈ Finset.range n, Lmat n w2 i t * yrec a p j t
      = deltaF (pfun p i) j := by
  rw [← Finset.sum_subset (Finset.range_subset.mpr (show i + 1 ≤ n from hi))
    (fun t ht htn => by
      have h1 := Finset.mem_range.mp ht
      have h2 : ¬t < i + 1 := fun hc => htn (Finset.mem_range.mpr hc)
      rw [Lmat_upper n w2 i t (by omega), zero_mul])]
  rw [Finset.sum_range_succ, Lmat_diag, one_mul]
  have hlow : ∀ t ∈ Finset.range i, Lmat n w2 i t * yrec a p j t
      = a i t * yrec a p j t := by
    intro t ht
    have htl := Finset.mem_range.mp ht
    unfold Lmat
    rw [if_neg (by omega), if_pos ⟨by omega, htl⟩, hAw i t hi (by omega)]
  rw [Finset.sum_congr rfl hlow, yrec_finset a p j i]
  unfold deltaF pfun
  ring

/-- Back substitution solves the upper-triangular system: the product of
the `U` factor with the `xrec` vector recovers the right-hand side. -/
theorem backward_solve (n : Nat) (w2 a : Nat → Nat → ℚ) (yv : Nat → ℚ)
    (hAw : ∀ x y, x < n → y < n → a x y = w2 x y)
    (hdiag : ∀ t, t < n → w2 t t ≠ 0)
    (i : Nat) (hi : i < n) :
    ∑ t ∈ Finset.range n, Umat n w2 i t * xrec a yv n t = yv i := by
  rw [Finset.range_eq_Ico]
  rw [← Finset.sum_subset
    (Finset.Ico_subset_Ico (Nat.zero_le i) le_rfl)
    (fun t ht htn => by
      have h1 := Finset.mem_Ico.mp ht
      have h2 : ¬(i ≤ t ∧ t < n) := fun hc => htn (Finset.mem_Ico.mpr hc)
      unfold Umat
      rw [if_pos ⟨by omega, by omega⟩, zero_mul])]
  rw [Finset.sum_eq_sum_Ico_succ_bot hi]
  have hU : Umat n w2 i i = w2 i i := by
    unfold Umat
    rw [if_neg (by omega)]
  have hrest : ∑ t ∈ Finset.Ico (i + 1) n, Umat n w2 i t * xrec a yv n t
      = ∑ t ∈ Finset.range (n - (i + 1)),
          a i (i + 1 + t) * xrec a yv n (i + 1 + t) := by
    rw [Finset.sum_Ico_eq_sum_range]
    apply Finset.sum_congr rfl
    intro t ht
    have h2 := Finset.mem_range.mp ht
    unfold Umat
    rw [if_neg (by omega), hAw i (i + 1 + t) hi (by omega)]
  rw [hU, hrest, xrec_finset a yv n i, hAw i i hi hi]
  have hc : ∀ q : ℚ, w2 i i * (q / w2 i i) = q := fun q => by
    rw [mul_comm, div_mul_cancel₀ q (hdiag i hi)]
  rw [hc]
  ring

/-- A product of two 180°-rotated matrices is the rotation of the
product. -/
theorem fmul_rot (n : Nat) (A B : Nat → Nat → ℚ) (i j : Nat) :
    fmul n (fun x y => A (n - 1 - x) (n - 1 - y))
      (fun x y => B (n - 1 - x) (n - 1 - y)) i j
      = fmul n A B (n - 1 - i) (n - 1 - j) := by
  unfold fmul
  exact Finset.sum_range_reflect
    (fun t => A (n - 1 - i) t * B t (n - 1 - j)) n

theorem deltaF_rot (n i j : Nat) (hi : i < n) (hj : j < n) :
    deltaF (n - 1 - i) (n - 1 - j) = deltaF i j := by
  unfold deltaF
  by_cases h : i = j
  · rw [if_pos (by omega), if_pos h]
  · rw [if_neg (by omega), if_neg h]

/-- Two square matrices with equal dimensions, full backing length, and
equal in-range entries are equal. -/
theorem matrix_ext_entries (m1 m2 : Matrix) (n : Nat)
    (h1 : m1.dims = ⟨n, n⟩) (h2 : m2.dims = ⟨n, n⟩) (hn : 1 ≤ n)
    (hl1 : m1.matrix.length = n * n) (hl2 : m2.matrix.length = n * n)
    (he : ∀ i j, i < n → j < n → m1.entry i j = m2.entry i j) :
    m1 = m2 := by
  have hcols1 : m1.dims.get_cols = n := by rw [Dimensions.get_cols, h1]
  have hcols2 : m2.dims.get_cols = n := by rw [Dimensions.get_cols, h2]
  have hget : ∀ q, q < n * n → m1.matrix.getD q 0 = m2.matrix.getD q 0 := by
    intro q hq
    have hn0 : 0 < n := by omega
    have hdq : q / n < n := (Nat.div_lt_iff_lt_mul hn0).mpr hq
    have hmq : q % n < n := Nat.mod_lt _ hn0
    have hee := he (q / n) (q % n) hdq hmq
    unfold Matrix.entry at hee
    rw [hcols1, hcols2] at hee
    have hq2 : q / n * n + q % n = q := by
      rw [Nat.add_comm, Nat.mul_comm]
      exact Nat.mod_add_div q n
    rw [hq2] at hee
    exact hee
  have hdims : m1.dims = m2.dims := by rw [h1, h2]
  have hlist : m1.matrix = m2.matrix := by
    apply List.ext_getElem (by rw [hl1, hl2])
    intro q hq1 hq2
    have hqn : q < n * n := by rw [← hl1]; exact hq1
    have h3 := hget q hqn
    rw [List.getD_eq_getElem _ _ hq1, List.getD_eq_getElem _ _ hq2] at h3
    exact h3
  obtain ⟨d1, l1⟩ := m1
  obtain ⟨d2, l2⟩ := m2
  rw [Matrix.mk.injEq]
  exact ⟨hdims, hlist⟩

/-- If the matrix product of `m` and `N` equals the identity matrix,
their entry functions multiply to the Kronecker delta on the n × n
range. -/
theorem matMul_eq_identity_entries (m N : Matrix) (n : Nat)
    (hm : m.dims = ⟨n, n⟩) (hN : N.dims = ⟨n, n⟩)
    (h : matMul m N = identityM n) :
    EqOn n (fmul n (fun x y => m.entry x y) (fun x y => N.entry x y))
      deltaF := by
  intro i j hi hj
  have hmr : m.dims.rows = n := by rw [hm]
  have hmc : m.dims.cols = n := by rw [hm]
  have hNc : N.dims.cols = n := by rw [hN]
  have h2 : toFlat (fun x y => ((List.range m.dims.cols).map
      (fun k => m.entry x k * N.entry k y)).sum) m.dims.rows N.dims.cols
      = toFlat deltaF n n := congrArg Matrix.matrix h
  rw [hmr, hmc, hNc] at h2
  have h3 : (toFlat (fun x y => ((List.range n).map
      (fun k => m.entry x k * N.entry k y)).sum) n n).getD (i * n + j) 0
      = (toFlat deltaF n n).getD (i * n + j) 0 := by rw [h2]
  rw [toFlat_getD _ n n _ (flat_index_lt n n i j hi hj),
    toFlat_getD deltaF n n _ (flat_index_lt n n i j hi hj),
    flat_div n i j hj, flat_mod n i j hj] at h3
  have h4 : fmul n (fun x y => m.entry x y) (fun x y => N.entry x y) i j
      = ((List.range n).map (fun k => m.entry i k * N.entry k j)).sum := by
    unfold fmul
    rw [list_sum_range n (fun k => m.entry i k * N.entry k j)]
  rw [h4]
  exact h3

/-- Invariant of the pivot loop: starting from a permutation of the rows
of `A` factored as `Lmat k · Umat k` with nonzero processed pivots, a
successful run ends with a complete factorisation with nonzero diagonal,
and a failed run ends at a state whose pivot column is entirely zero
from the diagonal down. -/
theorem lupGo_correct (n : Nat) (A : Nat → Nat → ℚ) :
    ∀ (rem k : Nat) (w : Nat → Nat → ℚ) (p : List Nat),
      k + rem = n →
      p.length = n →
      (∀ i, i < n → pfun p i < n) →
      (∀ i1 i2, i1 < n → i2 < n → pfun p i1 = pfun p i2 → i1 = i2) →
      (∀ j, j < k → w j j ≠ 0) →
      (∀ i j, i < n → j < n →
        fmul n (Lmat k w) (Umat k w) i j = A (pfun p i) j) →
      (∀ w2 p2, lupGo n rem k w p = some (w2, p2) →
        p2.length = n ∧
        (∀ i, i < n → pfun p2 i < n) ∧
        (∀ i1 i2, i1 < n → i2 < n → pfun p2 i1 = pfun p2 i2 → i1 = i2) ∧
        (∀ j, j < n → w2 j j ≠ 0) ∧
        (∀ i j, i < n → j < n →
          fmul n (Lmat n w2) (Umat n w2) i j = A (pfun p2 i) j)) ∧
      (lupGo n rem k w p = none →
        ∃ k2 w2 p2, k2 < n ∧ p2.length = n ∧
          (∀ i, i < n → pfun p2 i < n) ∧
          (∀ i1 i2, i1 < n → i2 < n → pfun p2 i1 = pfun p2 i2 → i1 = i2) ∧
          (∀ i j, i < n → j < n →
            fmul n (Lmat k2 w2) (Umat k2 w2) i j = A (pfun p2 i) j) ∧
          (∀ i, k2 ≤ i → i < n → w2 i k2 = 0)) := by
  intro rem
  induction rem with
  | zero =>
    intro k w p hkn hplen hran hinj hdiag hfact
    have hkeq : k = n := by omega
    subst hkeq
    constructor
    · intro w2 p2 h
      have h2 := Option.some.inj h
      obtain ⟨hw, hp⟩ := Prod.mk.inj h2
      subst hw
      subst hp
      exact ⟨hplen, hran, hinj, fun j hj => hdiag j hj, hfact⟩
    · intro h
      have h2 : some (w, p)
          = (none : Option ((Nat → Nat → ℚ) × List Nat)) := h
      exact Option.noConfusion h2
  | succ rem ih =>
    intro k w p hkn hplen hran hinj hdiag hfact
    have hklt : k < n := by omega
    obtain ⟨hp1s, hp2s, hpval, hpbound⟩ := pivotSearch_spec w n k hklt
    by_cases hz : (pivotSearch w n k).2 = 0
    · rw [lupGo_succ, if_pos hz]
      constructor
      · intro w2 p2 h
        exact Option.noConfusion h
      · intro _
        refine ⟨k, w, p, hklt, hplen, hran, hinj, hfact, ?_⟩
        intro i hki hin
        have hb := hpbound i hki hin
        rw [hz] at hb
        exact abs_eq_zero.mp (le_antisymm hb (abs_nonneg _))
    · rw [lupGo_succ, if_neg hz]
      have hmain : ∀ (w1 : Nat → Nat → ℚ) (p1 : List Nat),
          p1.length = n →
          (∀ i, i < n → pfun p1 i < n) →
          (∀ i1 i2, i1 < n → i2 < n → pfun p1 i1 = pfun p1 i2 → i1 = i2) →
          (∀ j, j < k → w1 j j ≠ 0) →
          (∀ i j, i < n → j < n →
            fmul n (Lmat k w1) (Umat k w1) i j = A (pfun p1 i) j) →
          w1 k k ≠ 0 →
          ((∀ w2 p2, lupGo n rem (k + 1) (elimStep n k w1) p1 = some (w2, p2) →
            p2.length = n ∧
            (∀ i, i < n → pfun p2 i < n) ∧
            (∀ i1 i2, i1 < n → i2 < n → pfun p2 i1 = pfun p2 i2 → i1 = i2) ∧
            (∀ j, j < n → w2 j j ≠ 0) ∧
            (∀ i j, i < n → j < n →
              fmul n (Lmat n w2) (Umat n w2) i j = A (pfun p2 i) j)) ∧
          (lupGo n rem (k + 1) (elimStep n k w1) p1 = none →
            ∃ k2 w2 p2, k2 < n ∧ p2.length = n ∧
              (∀ i, i < n → pfun p2 i < n) ∧
              (∀ i1 i2, i1 < n → i2 < n → pfun p2 i1 = pfun p2 i2 → i1 = i2) ∧
              (∀ i j, i < n → j < n →
                fmul n (Lmat k2 w2) (Umat k2 w2) i j = A (pfun p2 i) j) ∧
              (∀ i, k2 ≤ i → i < n → w2 i k2 = 0))) := by
        intro w1 p1 h1len h1ran h1inj h1diag h1fact h1piv
        have hnotmem : ∀ x, x ≤ k → x ∉ List.range' (k + 1) (n - (k + 1)) := by
          intro x hx hc
          have := List.mem_range'_1.mp hc
          omega
        have h2diag : ∀ j, j < k + 1 → elimStep n k w1 j j ≠ 0 := by
          intro j hj
          rw [elimStep_preserve_row n k w1 j j (hnotmem j (by omega))]
          rcases Nat.lt_or_ge j k with h | h
          · exact h1diag j h
          · have hjk : j = k := by omega
            subst hjk
            exact h1piv
        have h2fact : ∀ i j, i < n → j < n →
            fmul n (Lmat (k + 1) (elimStep n k w1))
              (Umat (k + 1) (elimStep n k w1)) i j = A (pfun p1 i) j := by
          intro i j hi hj
          have hL : EqOn n (Lmat (k + 1) (elimStep n k w1))
              (fmul n (Lmat k w1)
                (elimE n k (fun i2 => w1 i2 k / w1 k k) 1)) :=
            EqOn.symm2 (Lmat_mul_elimE n k hklt w1)
          have hU : EqOn n (Umat (k + 1) (elimStep n k w1))
              (fmul n (elimE n k (fun i2 => w1 i2 k / w1 k k) (-1))
                (Umat k w1)) :=
            EqOn.symm2 (elimE_mul_Umat n k hklt w1 h1piv)
          have hEE : EqOn n
              (fmul n (elimE n k (fun i2 => w1 i2 k / w1 k k) 1)
                (fmul n (elimE n k (fun i2 => w1 i2 k / w1 k k) (-1))
                  (Umat k w1)))
              (Umat k w1) := by
            intro x y hx hy
            calc fmul n (elimE n k (fun i2 => w1 i2 k / w1 k k) 1)
                  (fmul n (elimE n k (fun i2 => w1 i2 k / w1 k k) (-1))
                    (Umat k w1)) x y
                = fmul n (fmul n (elimE n k (fun i2 => w1 i2 k / w1 k k) 1)
                    (elimE n k (fun i2 => w1 i2 k / w1 k k) (-1)))
                    (Umat k w1) x y :=
                  (fmul_assoc_pt n _ _ _ x y).symm
              _ = fmul n deltaF (Umat k w1) x y :=
                  fmul_congr (elimE_inv_mul n k _) (EqOn.refl n _) x y hx hy
              _ = Umat k w1 x y := fmul_id_left n _ x y hx hy
          calc fmul n (Lmat (k + 1) (elimStep n k w1))
                (Umat (k + 1) (elimStep n k w1)) i j
              = fmul n (fmul n (Lmat k w1)
                  (elimE n k (fun i2 => w1 i2 k / w1 k k) 1))
                  (fmul n (elimE n k (fun i2 => w1 i2 k / w1 k k) (-1))
                    (Umat k w1)) i j :=
                fmul_congr hL hU i j hi hj
            _ = fmul n (Lmat k w1)
                  (fmul n (elimE n k (fun i2 => w1 i2 k / w1 k k) 1)
                    (fmul n (elimE n k (fun i2 => w1 i2 k / w1 k k) (-1))
                      (Umat k w1))) i j :=
                fmul_assoc_pt n _ _ _ i j
            _ = fmul n (Lmat k w1) (Umat k w1) i j :=
                fmul_congr (EqOn.refl n _) hEE i j hi hj
            _ = A (pfun p1 i) j := h1fact i j hi hj
        exact ih (k + 1) (elimStep n k w1) p1 (by omega) h1len h1ran h1inj
          h2diag h2fact
      by_cases hrk : (pivotSearch w n k).1 ≠ k
      · rw [if_pos hrk, if_pos hrk]
        have hkr : k ≤ (pivotSearch w n k).1 := hp1s
        have hrn : (pivotSearch w n k).1 < n := hp2s
        refine hmain (swapRowsF w k (pivotSearch w n k).1)
          ((p.set k (p.getD (pivotSearch w n k).1 0)).set
            (pivotSearch w n k).1 (p.getD k 0)) ?_ ?_ ?_ ?_ ?_ ?_
        · rw [List.length_set, List.length_set]
          exact hplen
        · intro i hi
          rw [pfun_swap p k (pivotSearch w n k).1 (by omega) (by omega) i]
          exact hran _ (swapIdx_lt hklt hrn hi)
        · intro i1 i2 h1 h2 he
          rw [pfun_swap p k (pivotSearch w n k).1 (by omega) (by omega) i1,
            pfun_swap p k (pivotSearch w n k).1 (by omega) (by omega) i2] at he
          have h3 := hinj _ _ (swapIdx_lt hklt hrn h1)
            (swapIdx_lt hklt hrn h2) he
          have h4 := congrArg (swapIdx k (pivotSearch w n k).1) h3
          rw [swapIdx_invol, swapIdx_invol] at h4
          exact h4
        · intro j hj
          rw [swapRowsF_eq, show swapIdx k (pivotSearch w n k).1 j = j from by
            unfold swapIdx
            rw [if_neg (by omega), if_neg (by omega)]]
          exact hdiag j hj
        · exact swap_preserves_fact n A k w p (pivotSearch w n k).1
            hklt hkr hrn hplen hfact
        · rw [swapRowsF_eq, show swapIdx k (pivotSearch w n k).1 k
              = (pivotSearch w n k).1 from by
            unfold swapIdx
            rw [if_pos rfl]]
          intro hc
          apply hz
          rw [hpval, hc, abs_zero]
      · rw [if_neg hrk, if_neg hrk]
        have hrk2 : (pivotSearch w n k).1 = k := not_not.mp hrk
        refine hmain w p hplen hran hinj hdiag hfact ?_
        intro hc
        apply hz
        rw [hpval, hrk2, hc, abs_zero]

/-- A zero pivot column cannot arise while decomposing a matrix with a
two-sided inverse: the masked `U` factor would then have `n - k2` rows
supported on only `n - k2 - 1` columns, yet be right-invertible. -/
theorem zero_pivot_impossible (n : Nat) (A NA : Nat → Nat → ℚ)
    (hAN : EqOn n (fmul n A NA) deltaF)
    (k2 : Nat) (hk2 : k2 < n)
    (w2 : Nat → Nat → ℚ) (p2 : List Nat)
    (hran : ∀ i, i < n → pfun p2 i < n)
    (hinj : ∀ i1 i2, i1 < n → i2 < n → pfun p2 i1 = pfun p2 i2 → i1 = i2)
    (hfact : ∀ i j, i < n → j < n →
      fmul n (Lmat k2 w2) (Umat k2 w2) i j = A (pfun p2 i) j)
    (hzero : ∀ i, k2 ≤ i → i < n → w2 i k2 = 0) : False := by
  have hLU : EqOn n (fmul n (Lmat k2 w2) (Umat k2 w2))
      (fmul n (permM p2) A) := by
    intro i j hi hj
    rw [hfact i j hi hj]
    exact (permM_apply n p2 A hran i j hi hj).symm
  have hLiL : EqOn n (fmul n (lowInv n (Lmat k2 w2)) (Lmat k2 w2)) deltaF :=
    lowInv_mul_low n (Lmat k2 w2) (fun i _ => Lmat_diag k2 w2 i)
      (fun i t _ h => Lmat_upper k2 w2 i t h)
  have hPPT : EqOn n (fmul n (permM p2) (permT p2)) deltaF :=
    permM_permT n p2 hran hinj
  have hUX : EqOn n (fmul n (Umat k2 w2)
      (fmul n NA (fmul n (permT p2) (Lmat k2 w2)))) deltaF := by
    have e1 : EqOn n (fmul n A (fmul n NA (fmul n (permT p2) (Lmat k2 w2))))
        (fmul n (permT p2) (Lmat k2 w2)) := by
      intro x y hx hy
      calc fmul n A (fmul n NA (fmul n (permT p2) (Lmat k2 w2))) x y
          = fmul n (fmul n A NA) (fmul n (permT p2) (Lmat k2 w2)) x y :=
            (fmul_assoc_pt n A NA _ x y).symm
        _ = fmul n deltaF (fmul n (permT p2) (Lmat k2 w2)) x y :=
            fmul_congr hAN (EqOn.refl n _) x y hx hy
        _ = fmul n (permT p2) (Lmat k2 w2) x y := fmul_id_left n _ x y hx hy
    have e2 : EqOn n (fmul n (fmul n (permM p2) A)
        (fmul n NA (fmul n (permT p2) (Lmat k2 w2)))) (Lmat k2 w2) := by
      intro x y hx hy
      calc fmul n (fmul n (permM p2) A)
            (fmul n NA (fmul n (permT p2) (Lmat k2 w2))) x y
          = fmul n (permM p2)
              (fmul n A (fmul n NA (fmul n (permT p2) (Lmat k2 w2)))) x y :=
            fmul_assoc_pt n _ _ _ x y
        _ = fmul n (permM p2) (fmul n (permT p2) (Lmat k2 w2)) x y :=
            fmul_congr (EqOn.refl n _) e1 x y hx hy
        _ = fmul n (fmul n (permM p2) (permT p2)) (Lmat k2 w2) x y :=
            (fmul_assoc_pt n _ _ _ x y).symm
        _ = fmul n deltaF (Lmat k2 w2) x y :=
            fmul_congr hPPT (EqOn.refl n _) x y hx hy
        _ = Lmat k2 w2 x y := fmul_id_left n _ x y hx hy
    have hUeq : EqOn n (Umat k2 w2)
        (fmul n (lowInv n (Lmat k2 w2)) (fmul n (permM p2) A)) := by
      intro x y hx hy
      calc Umat k2 w2 x y
          = fmul n deltaF (Umat k2 w2) x y := (fmul_id_left n _ x y hx hy).symm
        _ = fmul n (fmul n (lowInv n (Lmat k2 w2)) (Lmat k2 w2))
              (Umat k2 w2) x y :=
            (fmul_congr hLiL (EqOn.refl n _) x y hx hy).symm
        _ = fmul n (lowInv n (Lmat k2 w2))
              (fmul n (Lmat k2 w2) (Umat k2 w2)) x y :=
            fmul_assoc_pt n _ _ _ x y
        _ = fmul n (lowInv n (Lmat k2 w2)) (fmul n (permM p2) A) x y :=
            fmul_congr (EqOn.refl n _) hLU x y hx hy
    intro i j hi hj
    calc fmul n (Umat k2 w2)
          (fmul n NA (fmul n (permT p2) (Lmat k2 w2))) i j
        = fmul n (fmul n (lowInv n (Lmat k2 w2)) (fmul n (permM p2) A))
            (fmul n NA (fmul n (permT p2) (Lmat k2 w2))) i j :=
          fmul_congr hUeq (EqOn.refl n _) i j hi hj
      _ = fmul n (lowInv n (Lmat k2 w2)) (fmul n (fmul n (permM p2) A)
            (fmul n NA (fmul n (permT p2) (Lmat k2 w2)))) i j :=
          fmul_assoc_pt n _ _ _ i j
      _ = fmul n (lowInv n (Lmat k2 w2)) (Lmat k2 w2) i j :=
          fmul_congr (EqOn.refl n _) e2 i j hi hj
      _ = deltaF i j := hLiL i j hi hj
  have hUrow : ∀ a t, k2 ≤ a → a < n → t ≤ k2 → Umat k2 w2 a t = 0 := by
    intro a t ha han ht
    unfold Umat
    rcases Nat.lt_or_ge t k2 with h | h
    · rw [if_pos ⟨h, by omega⟩]
    · have htk : t = k2 := by omega
      subst htk
      rw [if_neg (by omega)]
      exact hzero a ha han
  apply no_wide_right_inverse (n - k2) (by omega)
    (fun a t => Umat k2 w2 (k2 + a) (k2 + 1 + t))
    (fun t b => fmul n NA (fmul n (permT p2) (Lmat k2 w2)) (k2 + 1 + t) (k2 + b))
  intro a b ha hb
  show ∑ t ∈ Finset.range (n - k2 - 1),
      Umat k2 w2 (k2 + a) (k2 + 1 + t)
        * fmul n NA (fmul n (permT p2) (Lmat k2 w2)) (k2 + 1 + t) (k2 + b)
    = deltaF a b
  have hsum : ∑ t ∈ Finset.range n, Umat k2 w2 (k2 + a) t
      * fmul n NA (fmul n (permT p2) (Lmat k2 w2)) t (k2 + b)
      = deltaF (k2 + a) (k2 + b) :=
    hUX (k2 + a) (k2 + b) (by omega) (by omega)
  rw [Finset.range_eq_Ico] at hsum
  rw [← Finset.sum_subset
    (Finset.Ico_subset_Ico (Nat.zero_le (k2 + 1)) le_rfl)
    (fun t ht htn => by
      have h1 := Finset.mem_Ico.mp ht
      have h2 : ¬(k2 + 1 ≤ t ∧ t < n) := fun hc => htn (Finset.mem_Ico.mpr hc)
      rw [hUrow (k2 + a) t (by omega) (by omega) (by omega), zero_mul])] at hsum
  rw [Finset.sum_Ico_eq_sum_range] at hsum
  rw [show n - (k2 + 1) = n - k2 - 1 from by omega] at hsum
  rw [show deltaF (k2 + a) (k2 + b) = deltaF a b from by
    unfold deltaF
    by_cases h : a = b
    · rw [if_pos (by omega), if_pos h]
    · rw [if_neg (by omega), if_neg h]] at hsum
  exact hsum

/-- The substitution buffer computes the true inverse: when the combined
factor `w2` carries a complete factorisation of a two-sided-invertible
`A`, the substitution recurrences applied to the factor entries `a`
produce the entries of the inverse `NA`. -/
theorem buffer_is_inverse (n : Nat) (A NA w2 a : Nat → Nat → ℚ)
    (p2 : List Nat)
    (hAw : ∀ x y, x < n → y < n → a x y = w2 x y)
    (hran : ∀ i, i < n → pfun p2 i < n)
    (hinj : ∀ i1 i2, i1 < n → i2 < n → pfun p2 i1 = pfun p2 i2 → i1 = i2)
    (hdiag : ∀ t, t < n → w2 t t ≠ 0)
    (hfact : ∀ i j, i < n → j < n →
      fmul n (Lmat n w2) (Umat n w2) i j = A (pfun p2 i) j)
    (hNA : EqOn n (fmul n NA A) deltaF)
    (i j : Nat) (hi : i < n) (hj : j < n) :
    xrec a (yrec a p2 j) n i = NA i j := by
  have hcol : ∀ i2, i2 < n →
      ∑ s ∈ Finset.range n, A i2 s * xrec a (yrec a p2 j) n s
        = deltaF i2 j := by
    intro i2 hi2
    obtain ⟨i0, hi0, hpi0⟩ := pfun_surj n p2 hran hinj i2 hi2
    have hstep1 : fmul n (fmul n (Lmat n w2) (Umat n w2))
        (colV (fun s => xrec a (yrec a p2 j) n s)) i0 j
        = ∑ s ∈ Finset.range n, A i2 s * xrec a (yrec a p2 j) n s := by
      have hterm : ∀ s ∈ Finset.range n,
          fmul n (Lmat n w2) (Umat n w2) i0 s
            * colV (fun s2 => xrec a (yrec a p2 j) n s2) s j
          = A i2 s * xrec a (yrec a p2 j) n s := by
        intro s hs
        rw [hfact i0 s hi0 (Finset.mem_range.mp hs), hpi0]
        rfl
      exact Finset.sum_congr rfl hterm
    have hstep3 : fmul n (Lmat n w2) (fmul n (Umat n w2)
        (colV (fun s => xrec a (yrec a p2 j) n s))) i0 j
        = ∑ t ∈ Finset.range n, Lmat n w2 i0 t * yrec a p2 j t := by
      unfold fmul
      apply Finset.sum_congr rfl
      intro t ht
      have hb : (∑ s ∈ Finset.range n, Umat n w2 t s
          * colV (fun s2 => xrec a (yrec a p2 j) n s2) s j)
          = yrec a p2 j t :=
        backward_solve n w2 a (yrec a p2 j) hAw hdiag t
          (Finset.mem_range.mp ht)
      rw [hb]
    calc ∑ s ∈ Finset.range n, A i2 s * xrec a (yrec a p2 j) n s
        = fmul n (fmul n (Lmat n w2) (Umat n w2))
            (colV (fun s => xrec a (yrec a p2 j) n s)) i0 j := hstep1.symm
      _ = fmul n (Lmat n w2) (fmul n (Umat n w2)
            (colV (fun s => xrec a (yrec a p2 j) n s))) i0 j :=
          fmul_assoc_pt n _ _ _ i0 j
      _ = ∑ t ∈ Finset.range n, Lmat n w2 i0 t * yrec a p2 j t := hstep3
      _ = deltaF (pfun p2 i0) j := forward_solve n w2 a p2 j hAw i0 hi0
      _ = deltaF i2 j := by rw [hpi0]
  calc xrec a (yrec a p2 j) n i
      = ∑ t ∈ Finset.range n, deltaF i t * xrec a (yrec a p2 j) n t :=
        (sum_delta_left n i hi _).symm
    _ = ∑ t ∈ Finset.range n, fmul n NA A i t * xrec a (yrec a p2 j) n t := by
        apply Finset.sum_congr rfl
        intro t ht
        rw [hNA i t hi (Finset.mem_range.mp ht)]
    _ = ∑ t ∈ Finset.range n, ∑ s ∈ Finset.range n,
          NA i s * (A s t * xrec a (yrec a p2 j) n t) := by
        apply Finset.sum_congr rfl
        intro t ht
        unfold fmul
        rw [Finset.sum_mul]
        apply Finset.sum_congr rfl
        intro s hs
        ring
    _ = ∑ s ∈ Finset.range n, ∑ t ∈ Finset.range n,
          NA i s * (A s t * xrec a (yrec a p2 j) n t) := Finset.sum_comm
    _ = ∑ s ∈ Finset.range n, NA i s * deltaF s j := by
        apply Finset.sum_congr rfl
        intro s hs
        rw [← Finset.mul_sum, hcol s (Finset.mem_range.mp hs)]
    _ = NA i j := sum_delta_right n j hj _

/-- Full correctness of `inv` on a matrix with a two-sided inverse `NA`:
the call succeeds and returns the 180°-rotated inverse, entry (i,j) of
the result being `NA (n-1-i) (n-1-j)`. -/
theorem inv_correct (m : Matrix) (n : Nat) (NA : Nat → Nat → ℚ)
    (hm : m.dims = ⟨n, n⟩) (hn : 1 ≤ n)
    (hAN : EqOn n (fmul n (fun x y => m.entry x y) NA) deltaF)
    (hNAA : EqOn n (fmul n NA (fun x y => m.entry x y)) deltaF) :
    ∃ res, inv m = .ok (some res) ∧ res.dims = ⟨n, n⟩ ∧
      res.matrix.length = n * n ∧
      (∀ i j, i < n → j < n →
        res.entry i j = NA (n - 1 - i) (n - 1 - j)) := by
  have hrows : m.dims.get_rows = n := by rw [Dimensions.get_rows, hm]
  have hsq : m.dims.get_rows = m.dims.get_cols := by
    rw [Dimensions.get_rows, Dimensions.get_cols, hm]
  have hinit_fact : ∀ i j, i < n → j < n →
      fmul n (Lmat 0 (fun x y => m.entry x y))
        (Umat 0 (fun x y => m.entry x y)) i j
        = (fun x y => m.entry x y) (pfun (List.range n) i) j := by
    intro i j hi hj
    have hL0 : ∀ x y, Lmat 0 (fun x2 y2 => m.entry x2 y2) x y = deltaF x y := by
      intro x y
      unfold Lmat deltaF
      split_ifs <;> first | rfl | omega
    have hU0 : ∀ x y, Umat 0 (fun x2 y2 => m.entry x2 y2) x y
        = m.entry x y := by
      intro x y
      unfold Umat
      rw [if_neg (by omega)]
    calc fmul n (Lmat 0 (fun x y => m.entry x y))
          (Umat 0 (fun x y => m.entry x y)) i j
        = fmul n deltaF (fun x y => m.entry x y) i j :=
          fmul_congr (fun x y _ _ => hL0 x y) (fun x y _ _ => hU0 x y) i j hi hj
      _ = m.entry i j := fmul_id_left n _ i j hi hj
      _ = (fun x y => m.entry x y) (pfun (List.range n) i) j := by
          rw [pfun_range n i hi]
  obtain ⟨hsucc, hfail⟩ := lupGo_correct n (fun x y => m.entry x y) n 0
    (fun x y => m.entry x y) (List.range n) (by omega) (List.length_range n)
    (fun i hi => by rw [pfun_range n i hi]; exact hi)
    (fun i1 i2 h1 h2 he => by
      rw [pfun_range n i1 h1, pfun_range n i2 h2] at he
      exact he)
    (fun j hj => absurd hj (Nat.not_lt_zero j))
    hinit_fact
  cases hgo : lupGo n n 0 (fun i j => m.entry i j) (List.range n) with
  | none =>
    exfalso
    obtain ⟨k2, w2, p2, hk2, hp2len, hran2, hinj2, hfact2, hz2⟩ := hfail hgo
    exact zero_pivot_impossible n (fun x y => m.entry x y) NA hAN k2 hk2
      w2 p2 hran2 hinj2 hfact2 hz2
  | some wp =>
    obtain ⟨w2, p2⟩ := wp
    obtain ⟨hp2len, hran2, hinj2, hdiag2, hfact2⟩ := hsucc w2 p2 hgo
    have hld : lupdecompose m
        = .ok (some (⟨⟨n, n⟩, toFlat w2 n n⟩, p2)) := by
      rw [lupdecompose_eq_match m hsq, hrows, hgo]
    have hinv : inv m = .ok (some ⟨⟨n, n⟩,
        (toFlat (invBuffer
          (fun x y => Matrix.entry ⟨⟨n, n⟩, toFlat w2 n n⟩ x y) p2 n)
          n n).reverse⟩) := by
      unfold inv
      rw [hld]
      rfl
    have hAw : ∀ x y, x < n → y < n →
        Matrix.entry ⟨⟨n, n⟩, toFlat w2 n n⟩ x y = w2 x y :=
      fun x y hx hy => entry_toFlat w2 n n x y hx hy
    refine ⟨_, hinv, rfl, ?_, ?_⟩
    · show ((toFlat (invBuffer
          (fun x y => Matrix.entry ⟨⟨n, n⟩, toFlat w2 n n⟩ x y) p2 n)
          n n).reverse).length = n * n
      rw [List.length_reverse, toFlat_length]
    · intro i j hi hj
      show ((toFlat (invBuffer
          (fun x y => Matrix.entry ⟨⟨n, n⟩, toFlat w2 n n⟩ x y) p2 n)
          n n).reverse).getD (i * n + j) 0 = NA (n - 1 - i) (n - 1 - j)
      rw [toFlat_rev_getD _ n i j hi hj]
      rw [invBuffer_at _ p2 n _ _ (by omega) (by omega)]
      exact buffer_is_inverse n (fun x y => m.entry x y) NA w2
        (fun x y => Matrix.entry ⟨⟨n, n⟩, toFlat w2 n n⟩ x y) p2
        hAw hran2 hinj2 hdiag2 hfact2 hNAA (n - 1 - i) (n - 1 - j)
        (by omega) (by omega)

/-! ## Claim theorems -/

/-- C2: for a non-square matrix (`rows ≠ cols`), `inv` returns
`Err(DimensionError)`, the error surfacing from the shape check that is
the first step of `lupdecompose`, before any decomposition or
substitution work. -/
theorem inv_nonsquare_dimension_error (m : Matrix)
    (h : m.dims.get_rows ≠ m.dims.get_cols) :
    inv m = .error .dimensionMismatch := by
  have hl : lupdecompose m = .error .dimensionMismatch := by
    unfold lupdecompose
    rw [if_pos h]
  unfold inv
  rw [hl]

/-- Witness for C2 at the concrete 2×3 matrix [[1,2,3],[4,5,6]]. -/
theorem inv_nonsquare_dimension_error_witness :
    rectM.dims.get_rows ≠ rectM.dims.get_cols ∧
      inv rectM = .error .dimensionMismatch :=
  ⟨by decide, inv_nonsquare_dimension_error rectM (by decide)⟩

/-- C3: for a square matrix whose LU decomposition reports singularity,
`inv` returns `Ok(None)` — never an error. -/
theorem inv_singular_ok_none (m : Matrix)
    (h : lupdecompose m = .ok none) : inv m = .ok none := by
  unfold inv
  rw [h]

/-- Witness for C3 at the singular matrix [[1,1],[1,1]] (two identical
rows). -/
theorem inv_singular_ok_none_witness :
    lupdecompose singM2 = .ok none ∧ inv singM2 = .ok none :=
  ⟨by decide!, inv_singular_ok_none singM2 (by decide!)⟩

/-- C1 (failing input): on the invertible matrix [[1,1],[0,1]] the code
returns [[1,0],[-1,1]] — the 180°-rotated true inverse — and neither
product with the input equals the identity matrix. -/
theorem inv_product_fails_identity :
    inv testM2 = .ok (some testM2inv) ∧
      matMul testM2 testM2inv ≠ identityM 2 ∧
      matMul testM2inv testM2 ≠ identityM 2 := by
  refine ⟨by decide!, by decide!, by decide!⟩

/-- C6 (failing input): on the doc example matrix
[[0,-1,2],[1,2,0],[2,1,0]] the code returns the 180° rotation of the
inverse asserted by its own doc comment, not the asserted inverse. -/
theorem inv_doc_example_deviates :
    inv docMatA =
      .ok (some ⟨⟨3, 3⟩, [-1/6, 1/3, 1/2, -1/3, 2/3, 0, 2/3, -1/3, 0]⟩) ∧
      inv docMatA ≠ .ok (some docMatB) := by
  refine ⟨by decide!, by decide!⟩

/-- C5: when the LU decomposition succeeds with factor matrix `mat` and
permutation `p`, every in-range entry (i,j) of the pre-reversal inverse
buffer of `inv` equals the forward/back substitution recurrences of the
spec: seed 1 if `p[i] = j` else 0 minus the sum over `k < i` of
`mat[i][k] * y[k]`, then subtract the sum over `k > i` of
`mat[i][k] * x[k]` and divide by `mat[i][i]`. -/
theorem inv_substitution_recurrences (m mat : Matrix) (p : List Nat)
    (h : lupdecompose m = .ok (some (mat, p))) (i j : Nat)
    (hi : i < mat.row_count) (hj : j < mat.row_count) :
    invBuffer (fun x y => mat.entry x y) p mat.row_count i j
      = xrec (fun x y => mat.entry x y)
          (yrec (fun x y => mat.entry x y) p j) mat.row_count i :=
  invBuffer_at _ _ _ i j hi hj

/-- Witness for C5 at [[1,1],[0,1]], whose LU factor is itself with the
identity permutation. -/
theorem inv_substitution_recurrences_witness :
    lupdecompose testM2 = .ok (some (testM2, [0, 1])) ∧
      invBuffer (fun x y => testM2.entry x y) [0, 1] testM2.row_count 0 1
        = xrec (fun x y => testM2.entry x y)
            (yrec (fun x y => testM2.entry x y) [0, 1] 1) testM2.row_count 0 :=
  ⟨by decide!, inv_substitution_recurrences testM2 testM2 [0, 1]
    (by decide!) 0 1 (by decide) (by decide)⟩

/-- C4 (counterexample): on [[1,1],[0,1]] the returned inverse is not
the row reversal (rows exchanged, in-row order kept) of the pre-reversal
buffer: the buffer is [[1,-1],[0,1]], its row reversal is [[0,1],[1,-1]],
but the code returns [[1,0],[-1,1]]. -/
theorem inv_row_reversal_counterexample :
    inv testM2 ≠ Except.ok ((bufferOf testM2).map rowReverse) := by
  decide!

/-- C4 (amended): the final step of `inv` reverses the flat row-major
buffer — entry (i,j) of the returned inverse is entry
(dim-1-i, dim-1-j) of the pre-reversal buffer, i.e. rows are reversed
and each row's elements are also reversed right-to-left. -/
theorem inv_flat_reversal (m mat : Matrix) (p : List Nat)
    (h : lupdecompose m = .ok (some (mat, p))) (i j : Nat)
    (hi : i < mat.row_count) (hj : j < mat.row_count) :
    ∃ res, inv m = .ok (some res) ∧
      res.entry i j = invBuffer (fun x y => mat.entry x y) p mat.row_count
        (mat.row_count - 1 - i) (mat.row_count - 1 - j) := by
  have hinv : inv m = .ok (some ⟨⟨mat.row_count, mat.row_count⟩,
      (toFlat (invBuffer (fun x y => mat.entry x y) p mat.row_count)
        mat.row_count mat.row_count).reverse⟩) := by
    unfold inv
    rw [h]
  refine ⟨_, hinv, ?_⟩
  show (toFlat (invBuffer (fun x y => mat.entry x y) p mat.row_count)
      mat.row_count mat.row_count).reverse.getD (i * mat.row_count + j) 0 = _
  rw [toFlat_rev_getD _ _ _ _ hi hj]

/-- Witness for C4's amended statement at [[1,1],[0,1]], entry (0,0) of
the returned inverse being entry (1,1) of the buffer. -/
theorem inv_flat_reversal_witness :
    lupdecompose testM2 = .ok (some (testM2, [0, 1])) ∧
      ∃ res, inv testM2 = .ok (some res) ∧
        res.entry 0 0 = invBuffer (fun x y => testM2.entry x y) [0, 1]
          testM2.row_count (testM2.row_count - 1 - 0) (testM2.row_count - 1 - 0) :=
  ⟨by decide!, inv_flat_reversal testM2 testM2 [0, 1]
    (by decide!) 0 0 (by decide) (by decide)⟩

/-- C7: for every dimension n ≥ 1, inverting the n × n identity matrix
yields `Ok(Some(I_n))` (the identity is a fixed point even of the flat
reversal, being symmetric under 180° rotation). -/
theorem inv_identity_matrix (n : Nat) (h : 1 ≤ n) :
    inv (identityM n) = .ok (some (identityM n)) := by
  have hl := lupdecompose_identityM n
  unfold inv
  rw [hl]
  have ha : ∀ x y, x < n → y < n → (identityM n).entry x y = deltaF x y :=
    fun x y hx hy => identityM_entry n x y hx hy
  have hbuf : ∀ i j, i < n → j < n →
      invBuffer (fun x y => (identityM n).entry x y) (List.range n) n i j
        = deltaF i j := by
    intro i j hi hj
    rw [invBuffer_at _ _ _ i j hi hj, xrec_delta n i _ _ ha hi,
      yrec_delta n j i _ ha hi]
  have hflat : toFlat
      (invBuffer (fun x y => (identityM n).entry x y) (List.range n) n) n n
      = toFlat deltaF n n := toFlat_congr _ _ _ _ hbuf
  show Except.ok (some ⟨⟨n, n⟩,
    (toFlat (invBuffer (fun x y => (identityM n).entry x y)
      (List.range n) n) n n).reverse⟩) = Except.ok (some (identityM n))
  rw [hflat, toFlat_delta_rev]
  rfl

/-- Witness for C7 at n = 3. -/
theorem inv_identity_matrix_witness :
    inv (identityM 3) = .ok (some (identityM 3)) :=
  inv_identity_matrix 3 (by decide)

/-- C9: for every matrix with at least one row and one column, the
Display formatter renders each row's elements left-to-right separated by
a single tab, consecutive rows separated by a single newline, and no
trailing newline after the last element. -/
theorem display_renders_tab_newline (render : ℚ → String) (m : Matrix)
    (h1 : 1 ≤ m.dims.get_rows) (h2 : 1 ≤ m.dims.get_cols) :
    fmtRender render m = displaySpec render m := by
  simp only [fmtRender, displaySpec]
  have hrow : ∀ (i : Nat) (s : String),
      (List.range m.dims.get_cols).foldl (fun s2 j =>
        if j = m.dims.get_cols - 1 ∧ i = m.dims.get_rows - 1 then
          s2 ++ render (m.entry i j)
        else if j = m.dims.get_cols - 1 then s2 ++ render (m.entry i j) ++ "\n"
        else s2 ++ render (m.entry i j) ++ "\t") s
      = s ++ sepConcat "\t" ((List.range m.dims.get_cols).map
          (fun j => render (m.entry i j)))
        ++ (if i = m.dims.get_rows - 1 then "" else "\n") := by
    intro i s
    have hbody : (fun (s2 : String) (j : Nat) =>
        if j = m.dims.get_cols - 1 ∧ i = m.dims.get_rows - 1 then
          s2 ++ render (m.entry i j)
        else if j = m.dims.get_cols - 1 then s2 ++ render (m.entry i j) ++ "\n"
        else s2 ++ render (m.entry i j) ++ "\t")
        = fun (s2 : String) (j : Nat) => s2 ++ render (m.entry i j)
            ++ (if j = m.dims.get_cols - 1 then
              (if i = m.dims.get_rows - 1 then "" else "\n") else "\t") := by
      funext s2 j
      by_cases hj : j = m.dims.get_cols - 1
      · by_cases hi : i = m.dims.get_rows - 1
        · rw [if_pos ⟨hj, hi⟩, if_pos hj, if_pos hi, String.append_empty]
        · rw [if_neg (by tauto), if_pos hj, if_pos hj, if_neg hi]
      · rw [if_neg (by tauto), if_neg hj, if_neg hj]
    rw [hbody, List.range_eq_range']
    exact foldSepT (fun j => render (m.entry i j)) "\t"
      (if i = m.dims.get_rows - 1 then "" else "\n") m.dims.get_cols
      m.dims.get_cols 0 s (by omega) h2
  have hbody2 : (fun (s : String) (i : Nat) =>
      (List.range m.dims.get_cols).foldl (fun s2 j =>
        if j = m.dims.get_cols - 1 ∧ i = m.dims.get_rows - 1 then
          s2 ++ render (m.entry i j)
        else if j = m.dims.get_cols - 1 then s2 ++ render (m.entry i j) ++ "\n"
        else s2 ++ render (m.entry i j) ++ "\t") s)
      = fun (s : String) (i : Nat) => s ++ sepConcat "\t"
          ((List.range m.dims.get_cols).map (fun j => render (m.entry i j)))
        ++ (if i = m.dims.get_rows - 1 then "" else "\n") :=
    funext fun s => funext fun i => hrow i s
  rw [hbody2, List.range_eq_range' m.dims.get_rows]
  rw [foldSepT (fun i => sepConcat "\t" ((List.range m.dims.get_cols).map
      (fun j => render (m.entry i j)))) "\n" "" m.dims.get_rows
    m.dims.get_rows 0 "" (by omega) h1]
  rw [String.empty_append, String.append_empty]

/-- Witness for C9 at the 2×2 matrix [[1,2],[3,4]] with the rational
renderer, producing exactly the tab/newline string of the claim. -/
theorem display_renders_tab_newline_witness :
    fmtRender qRender dispM = displaySpec qRender dispM ∧
      fmtRender qRender dispM = "1\t2\n3\t4" :=
  ⟨display_renders_tab_newline qRender dispM (by decide) (by decide),
    by decide!⟩

/-- C10: under the library invariant rows = cols ≥ 1, the partial
internal operations of `inv` are safe: `inv` never hits the error branch
beyond the propagated `DimensionError` (it returns `Ok`), the factor
matrix has the same positive dimension, the `dim - 1` bound of the
descending loop does not underflow, and `Matrix::zero(dim, dim)` returns
`Ok`, so its `unwrap` cannot panic. -/
theorem inv_internal_ops_safe (m : Matrix)
    (hsq : m.dims.get_rows = m.dims.get_cols) (h1 : 1 ≤ m.dims.get_rows) :
    (∃ r, inv m = .ok r) ∧
      (∀ mat p, lupdecompose m = .ok (some (mat, p)) →
        mat.row_count = m.dims.get_rows ∧ 1 ≤ mat.row_count ∧
          mat.row_count - 1 + 1 = mat.row_count ∧
          (∃ z, Matrix.zero mat.row_count mat.row_count = .ok z)) := by
  obtain ⟨hex, hshape⟩ := lupdecompose_square_shape m hsq
  constructor
  · obtain ⟨res, hres⟩ := hex
    cases res with
    | none => exact ⟨none, by unfold inv; rw [hres]⟩
    | some mp =>
      obtain ⟨mat, p⟩ := mp
      refine ⟨some ⟨⟨mat.row_count, mat.row_count⟩,
        (toFlat (invBuffer (fun x y => mat.entry x y) p mat.row_count)
          mat.row_count mat.row_count).reverse⟩, ?_⟩
      unfold inv
      rw [hres]
  · intro mat p hmp
    have hdims := hshape mat p hmp
    have hrc : mat.row_count = m.dims.get_rows := by
      rw [Matrix.row_count, hdims]
    refine ⟨hrc, by omega, by omega, ?_⟩
    refine ⟨⟨⟨mat.row_count, mat.row_count⟩,
      List.replicate (mat.row_count * mat.row_count) 0⟩, ?_⟩
    unfold Matrix.zero
    rw [if_neg (by omega)]

/-- Witness for C10 at the 2×2 identity matrix. -/
theorem inv_internal_ops_safe_witness :
    (∃ r, inv (identityM 2) = .ok r) ∧
      (∀ mat p, lupdecompose (identityM 2) = .ok (some (mat, p)) →
        mat.row_count = (identityM 2).dims.get_rows ∧ 1 ≤ mat.row_count ∧
          mat.row_count - 1 + 1 = mat.row_count ∧
          (∃ z, Matrix.zero mat.row_count mat.row_count = .ok z)) :=
  inv_internal_ops_safe (identityM 2) (by decide) (by decide)

/-- C8: for every invertible square matrix (one admitting a two-sided
inverse `N` under matrix multiplication), applying `inv` twice is a
round trip: the first call succeeds with some `m1`, the second call on
`m1` succeeds with some `m2`, and `m2 = m` exactly.  (Each call returns
the 180°-rotated true inverse, and the rotation cancels across the two
applications.) -/
theorem inv_double_roundtrip (m N : Matrix) (n : Nat)
    (hm : m.dims = ⟨n, n⟩) (hN : N.dims = ⟨n, n⟩) (hn : 1 ≤ n)
    (hlen : m.matrix.length = n * n)
    (h1 : matMul m N = identityM n) (h2 : matMul N m = identityM n) :
    ∃ m1 m2, inv m = .ok (some m1) ∧ inv m1 = .ok (some m2) ∧ m2 = m := by
  have hAN : EqOn n (fmul n (fun x y => m.entry x y)
      (fun x y => N.entry x y)) deltaF :=
    matMul_eq_identity_entries m N n hm hN h1
  have hNA : EqOn n (fmul n (fun x y => N.entry x y)
      (fun x y => m.entry x y)) deltaF :=
    matMul_eq_identity_entries N m n hN hm h2
  obtain ⟨m1, hinv1, hd1, hl1, he1⟩ :=
    inv_correct m n (fun x y => N.entry x y) hm hn hAN hNA
  have hAN2 : EqOn n (fmul n (fun x y => m1.entry x y)
      (fun x y => m.entry (n - 1 - x) (n - 1 - y))) deltaF := by
    intro i j hi hj
    calc fmul n (fun x y => m1.entry x y)
          (fun x y => m.entry (n - 1 - x) (n - 1 - y)) i j
        = fmul n (fun x y => N.entry (n - 1 - x) (n - 1 - y))
            (fun x y => m.entry (n - 1 - x) (n - 1 - y)) i j :=
          fmul_congr (fun x y hx hy => he1 x y hx hy) (EqOn.refl n _) i j hi hj
      _ = fmul n (fun x y => N.entry x y) (fun x y => m.entry x y)
            (n - 1 - i) (n - 1 - j) :=
          fmul_rot n (fun x y => N.entry x y) (fun x y => m.entry x y) i j
      _ = deltaF (n - 1 - i) (n - 1 - j) :=
          hNA (n - 1 - i) (n - 1 - j) (by omega) (by omega)
      _ = deltaF i j := deltaF_rot n i j hi hj
  have hNA2 : EqOn n (fmul n (fun x y => m.entry (n - 1 - x) (n - 1 - y))
      (fun x y => m1.entry x y)) deltaF := by
    intro i j hi hj
    calc fmul n (fun x y => m.entry (n - 1 - x) (n - 1 - y))
          (fun x y => m1.entry x y) i j
        = fmul n (fun x y => m.entry (n - 1 - x) (n - 1 - y))
            (fun x y => N.entry (n - 1 - x) (n - 1 - y)) i j :=
          fmul_congr (EqOn.refl n _) (fun x y hx hy => he1 x y hx hy) i j hi hj
      _ = fmul n (fun x y => m.entry x y) (fun x y => N.entry x y)
            (n - 1 - i) (n - 1 - j) :=
          fmul_rot n (fun x y => m.entry x y) (fun x y => N.entry x y) i j
      _ = deltaF (n - 1 - i) (n - 1 - j) :=
          hAN (n - 1 - i) (n - 1 - j) (by omega) (by omega)
      _ = deltaF i j := deltaF_rot n i j hi hj
  obtain ⟨m2, hinv2, hd2, hl2, he2⟩ := inv_correct m1 n
    (fun x y => m.entry (n - 1 - x) (n - 1 - y)) hd1 hn hAN2 hNA2
  refine ⟨m1, m2, hinv1, hinv2, ?_⟩
  apply matrix_ext_entries m2 m n hd2 hm hn hl2 hlen
  intro i j hi hj
  have h3 : m2.entry i j
      = m.entry (n - 1 - (n - 1 - i)) (n - 1 - (n - 1 - j)) := he2 i j hi hj
  rw [h3, show n - 1 - (n - 1 - i) = i from by omega,
    show n - 1 - (n - 1 - j) = j from by omega]

/-- Witness for C8 at [[1,1],[0,1]], whose two-sided inverse is
[[1,-1],[0,1]]. -/
theorem inv_double_roundtrip_witness :
    ∃ m1 m2, inv testM2 = .ok (some m1) ∧ inv m1 = .ok (some m2) ∧
      m2 = testM2 :=
  inv_double_roundtrip testM2 ⟨⟨2, 2⟩, [1, -1, 0, 1]⟩ 2 (by decide) (by decide)
    (by decide) (by decide) (by decide!) (by decide!)

end Libmat
